import Mathlib

/-!
# Verification of the Havlak loop-finder (cfg.ts / havlak.ts)

Shallow embedding of the control-flow-graph container (`cfg.ts`) and the
Havlak loop-finding algorithm (`havlak.ts`).

Modelling conventions:

* A `BasicBlock` carries a `name` and an `id`, mirroring the two fields of
  the TypeScript class.  The algorithm indexes its working arrays
  (`numbers`, `nonBackPreds`, ...) by `block.name`, so `name` is modelled
  as `Nat` (the canonical numeric label a driver passes to `createNode`).
* Mutable heap state is threaded explicitly.  Arrays indexed by block name
  or DFS number become total functions `Nat → _` updated pointwise; this
  matches the JavaScript arrays on all indices the algorithm actually
  touches.
* `SimpleLoop` records live in an arena (`List SimpleLoop`, index =
  creation order); `parent` / `children` are arena indices, which resolves
  the mutable object graph of the source without reference cycles.
* The recursive procedures (`DFS`, `findSet`, the inner worklist loop, the
  recursive `checksum`) take an explicit fuel argument.  The source
  recursions terminate on the states the program actually reaches; fuel
  exhaustion is mapped to an abort result and is proved unreachable where
  a claim needs it.
* The DFS additionally records a ghost spanning-tree parent (`par`) used
  only in specifications; it does not influence any computed value.
-/

/-- `mix` from havlak.ts: `((existing & 0x0fffffff) << 1) + value`.
JavaScript bitwise operations act on 32-bit integers; masking with
`0x0fffffff` leaves the low 28 bits, so on naturals this is
`(existing mod 2^28) * 2 + value`, written with the source's mask/shift. -/
def mix (existing value : Nat) : Nat :=
  ((existing &&& 0x0fffffff) <<< 1) + value

/-- `BasicBlock` (cfg.ts): a name label and a numeric id. -/
structure BasicBlock where
  name : Nat
  id : Nat
deriving DecidableEq

/-- Pointwise update of a function-modelled array. -/
def upd {α : Type} (f : Nat → α) (i : Nat) (v : α) : Nat → α :=
  fun n => if n = i then v else f n

/-- `SimpleLoop` (havlak.ts).  `children` and `parent` are arena indices
into the owning `LSG`'s loop arena. -/
structure SimpleLoop where
  counter : Nat
  basicBlocks : List BasicBlock := []
  children : List Nat := []
  parent : Option Nat := none
  header : Option BasicBlock := none
  isRoot : Bool := false
  isReducible : Bool := true
  nestingLevel : Nat := 0
  depthLevel : Nat := 0
deriving DecidableEq

/-- `SimpleLoop.addNode`. -/
def SimpleLoop.addNode (l : SimpleLoop) (bb : BasicBlock) : SimpleLoop :=
  { l with basicBlocks := l.basicBlocks ++ [bb] }

/-- `SimpleLoop.addChildLoop`. -/
def SimpleLoop.addChildLoop (l : SimpleLoop) (c : Nat) : SimpleLoop :=
  { l with children := l.children ++ [c] }

/-- `SimpleLoop.setHeader`: pushes the header block onto `basicBlocks`
and records it as the header. -/
def SimpleLoop.setHeader (l : SimpleLoop) (bb : BasicBlock) : SimpleLoop :=
  { l with basicBlocks := l.basicBlocks ++ [bb], header := some bb }

/-- `SimpleLoop.setNestingLevel`: level 0 marks the loop as root. -/
def SimpleLoop.setNestingLevel (l : SimpleLoop) (level : Nat) : SimpleLoop :=
  { l with nestingLevel := level, isRoot := if level = 0 then true else l.isRoot }

/-- One step of the per-loop checksum accumulation before the recursive
children part: serial id, isRoot, isReducible, nestingLevel, depthLevel,
optional header name, then the member blocks' names in insertion order. -/
def SimpleLoop.checksumBase (l : SimpleLoop) : Nat :=
  let r := l.counter
  let r := mix r (if l.isRoot then 1 else 0)
  let r := mix r (if l.isReducible then 1 else 0)
  let r := mix r l.nestingLevel
  let r := mix r l.depthLevel
  let r := match l.header with
    | some h => mix r h.name
    | none => r
  l.basicBlocks.foldl (fun acc e => mix acc e.name) r

/-- Fueled per-loop checksum over an arena (`SimpleLoop.checksum` in the
source recurses through the `children` object references). -/
def checksumAux (arena : List SimpleLoop) : Nat → Nat → Nat
  | 0, _ => 0
  | fuel + 1, i =>
    match arena[i]? with
    | none => 0
    | some l =>
      l.children.foldl (fun acc c => mix acc (checksumAux arena fuel c)) l.checksumBase

/-- Per-loop checksum of the arena entry at index `i`.  For well-formed
arenas (children indices strictly below the parent index, as produced by
the algorithm) the fuel `i + 1` is always sufficient. -/
def checksumAt (arena : List SimpleLoop) (i : Nat) : Nat :=
  checksumAux arena (i + 1) i

/-- `LSG` (LoopStructureGraph): loop arena, storage order, serial counter,
root index. -/
structure LSG where
  loopCounter : Nat
  arena : List SimpleLoop
  loops : List Nat
  root : Nat
deriving DecidableEq

/-- The `LSG` constructor: a fresh root loop with serial id 0 and nesting
level 0 (hence `isRoot = true`), stored as element 0 of `loops`. -/
def LSG.init : LSG :=
  let root := (SimpleLoop.setNestingLevel { counter := 0 } 0)
  { loopCounter := 1, arena := [root], loops := [0], root := 0 }

/-- `LSG.createNewLoop`: allocate a loop with the next serial id. -/
def LSG.createNewLoop (s : LSG) : Nat × LSG :=
  (s.arena.length,
    { s with arena := s.arena ++ [{ counter := s.loopCounter }],
             loopCounter := s.loopCounter + 1 })

/-- `LSG.addLoop`: record a loop (by arena index) in storage order. -/
def LSG.addLoop (s : LSG) (i : Nat) : LSG :=
  { s with loops := s.loops ++ [i] }

/-- `LSG.checksum`: seed with the number of loops, mix every stored loop's
checksum in storage order, finally mix the root's checksum once more. -/
def LSG.checksum (s : LSG) : Nat :=
  let result := s.loops.length
  let result := s.loops.foldl (fun acc e => mix acc (checksumAt s.arena e)) result
  mix result (checksumAt s.arena s.root)

/-- `LSG.getNumLoops`. -/
def LSG.getNumLoops (s : LSG) : Nat :=
  s.loops.length

/-- Modify the arena entry at index `i`. -/
def LSG.modifyLoop (s : LSG) (i : Nat) (f : SimpleLoop → SimpleLoop) : LSG :=
  { s with arena := s.arena.set i (f (s.arena.getD i { counter := 0 })) }

/-- `SimpleLoop.setParent` on the arena: set the child's parent pointer and
append the child to the parent's `children` list. -/
def LSG.setParent (s : LSG) (child p : Nat) : LSG :=
  (s.modifyLoop child (fun l => { l with parent := some p })).modifyLoop p
    (fun l => l.addChildLoop child)

/-! ## The graph container (cfg.ts) -/

/-- The view of a `CFG` consumed by the loop finder: node count, start
node, and the per-block in/out edge vectors keyed by block name. -/
structure CFG where
  numNodes : Nat
  startNode : Option BasicBlock
  outEdges : Nat → List BasicBlock
  inEdges : Nat → List BasicBlock

/-- Builder state mirroring the `CFG` class of cfg.ts: id-keyed block map
in insertion order, edge list, start node, adjacency. -/
structure GraphB where
  basicBlockMap : List (Nat × BasicBlock)
  edgeList : List (BasicBlock × BasicBlock)
  startNode : Option BasicBlock
  outMap : Nat → List BasicBlock
  inMap : Nat → List BasicBlock

/-- The empty graph (`new CFG()`). -/
def GraphB.empty : GraphB :=
  { basicBlockMap := [], edgeList := [], startNode := none,
    outMap := fun _ => [], inMap := fun _ => [] }

/-- Lookup in the id-keyed block map. -/
def lookupBB : List (Nat × BasicBlock) → Nat → Option BasicBlock
  | [], _ => none
  | (k, b) :: rest, id => if k = id then some b else lookupBB rest id

/-- `CFG.createNode(name, id)`: idempotent by id; after registration, if
the map holds exactly one block it becomes the start node. -/
def GraphB.createNode (g : GraphB) (name id : Nat) : BasicBlock × GraphB :=
  let (node, g) :=
    match lookupBB g.basicBlockMap id with
    | some node => (node, g)
    | none =>
      let node : BasicBlock := { name := name, id := id }
      (node, { g with basicBlockMap := g.basicBlockMap ++ [(id, node)] })
  if g.basicBlockMap.length = 1 then (node, { g with startNode := some node })
  else (node, g)

/-- The `BasicBlockEdge` constructor: wire `to` into `from`'s out-edges and
`from` into `to`'s in-edges, then append the edge to the graph's edge
list.  The source performs no validation of either endpoint. -/
def GraphB.newEdge (g : GraphB) (f t : BasicBlock) : GraphB :=
  { g with
    outMap := upd g.outMap f.name (g.outMap f.name ++ [t]),
    inMap := upd g.inMap t.name (g.inMap t.name ++ [f]),
    edgeList := g.edgeList ++ [(f, t)] }

/-- Whether a block is registered in the builder's map under its id. -/
def GraphB.registers (g : GraphB) (b : BasicBlock) : Bool :=
  match lookupBB g.basicBlockMap b.id with
  | some node => node = b
  | none => false

/-- Extract the finder's view from the builder state. -/
def GraphB.toCFG (g : GraphB) : CFG :=
  { numNodes := g.basicBlockMap.length, startNode := g.startNode,
    outEdges := g.outMap, inEdges := g.inMap }

/-! ## The loop finder (havlak.ts) -/

/-- Block-type classification constants of `HavlakLoopFinder`. -/
def BB_NONHEADER : Nat := 1

def BB_REDUCIBLE : Nat := 2

def BB_SELF : Nat := 3

def BB_IRREDUCIBLE : Nat := 4

def BB_DEAD : Nat := 5

/-- `MAXNONBACKPREDS = 32 * 1024`. -/
def MAXNONBACKPREDS : Nat := 32 * 1024

/-- `isAncestor(w, v)` over DFS numbers: `(w <= v) && (v <= last[w])`. -/
def isAncestor (w v : Nat) (last : Nat → Nat) : Bool :=
  w ≤ v && v ≤ last w

/-- DFS state: preorder numbers keyed by block name (`none` = UNVISITED),
`last` keyed by DFS number, the visited block of each DFS number
(`nodes[i].bb`), and a ghost spanning-tree parent keyed by block name. -/
structure DfsState where
  numbers : Nat → Option Nat
  last : Nat → Nat
  bbOf : Nat → Option BasicBlock
  par : Nat → Option Nat

/-- Initial DFS state: everything unvisited, `last` all 0. -/
def dfsInit : DfsState :=
  { numbers := fun _ => none, last := fun _ => 0,
    bbOf := fun _ => none, par := fun _ => none }

/-- The out-edge loop of `DFS`, parametrised by the recursive visit
function `f`: recurse into each still-unvisited target, threading the
running `lastid` (and recording the ghost tree parent). -/
def dfsList (f : BasicBlock → DfsState → Nat → Option (DfsState × Nat)) (nodeName : Nat) :
    List BasicBlock → DfsState → Nat → Option (DfsState × Nat)
  | [], st, lastid => some (st, lastid)
  | t :: rest, st, lastid =>
    match st.numbers t.name with
    | some _ => dfsList f nodeName rest st lastid
    | none =>
      match f t { st with par := upd st.par t.name (some nodeName) } (lastid + 1) with
      | none => none
      | some (st, lastid) => dfsList f nodeName rest st lastid

/-- `HavlakLoopFinder.DFS`: number `node` with `current`, traverse its
out-edges in stored order recursing into unvisited targets, then record
`last[current]` as the largest number assigned in the subtree. -/
def dfsNode (g : CFG) : Nat → BasicBlock → DfsState → Nat → Option (DfsState × Nat)
  | 0 => fun _ _ _ => none
  | fuel + 1 => fun node st current =>
    let st := { st with numbers := upd st.numbers node.name (some current),
                        bbOf := upd st.bbOf current (some node) }
    match dfsList (dfsNode g fuel) node.name (g.outEdges node.name) st current with
    | none => none
    | some (st, lastid) =>
      some ({ st with last := upd st.last ((st.numbers node.name).getD 0) lastid }, lastid)

/-- The parent-chain walk of `UnionFindNode.findSet`, collecting the nodes
whose stored parent differs from that parent's own parent. -/
def findSetLoop (parent : Nat → Nat) : Nat → Nat → List Nat → Option (Nat × List Nat)
  | 0, n, acc => if parent n = n then some (n, acc) else none
  | fuel + 1, n, acc =>
    if parent n = n then some (n, acc)
    else
      findSetLoop parent fuel (parent n)
        (if parent (parent n) = parent n then acc else acc ++ [n])

/-- `UnionFindNode.findSet` with path compression: walk to the root, then
repoint every collected node's parent to the root's parent. -/
def findSet (parent : Nat → Nat) (n : Nat) : Option (Nat × (Nat → Nat)) :=
  match findSetLoop parent (n + 1) n [] with
  | none => none
  | some (root, collected) =>
    some (root, collected.foldl (fun p m => upd p m (parent root)) parent)

/-- Mutable state of one `findLoops` run after the DFS pass.  `numbers`,
`last` and `bbOf` are read-only from here on; `nonBackPreds`, `types`,
`header`, the union-find parent map, the node-to-loop map and the forest
are updated as in the source. -/
structure FLState where
  size : Nat
  nonBackPreds : Nat → List Nat
  backPreds : Nat → List Nat
  headerA : Nat → Nat
  types : Nat → Nat
  numbers : Nat → Option Nat
  last : Nat → Nat
  bbOf : Nat → Option BasicBlock
  ufParent : Nat → Nat
  ufLoop : Nat → Option Nat
  lsg : LSG

/-- Result of the inner worklist loop: normal completion with the grown
pool, or abort (the `return 0` paths and fuel exhaustion). -/
inductive WorkRes where
  | abort (st : FLState)
  | done (st : FLState) (pool : List Nat)

/-- Result of the outer (step c) loop. -/
inductive OuterRes where
  | abort (st : FLState)
  | done (st : FLState)

/-- Step b of `findLoops`: classify every incoming edge of every numbered
node as a backedge (`isAncestor w v`) or a non-backedge; unvisited
predecessors are ignored, unreached nodes are marked `BB_DEAD`. -/
def stepB (g : CFG) (st : FLState) : FLState :=
  (List.range st.size).foldl
    (fun st w =>
      match st.bbOf w with
      | none => { st with types := upd st.types w BB_DEAD }
      | some nodeW =>
        (g.inEdges nodeW.name).foldl
          (fun st nodeV =>
            match st.numbers nodeV.name with
            | none => st
            | some v =>
              if isAncestor w v st.last then
                { st with backPreds := upd st.backPreds w (st.backPreds w ++ [v]) }
              else
                { st with nonBackPreds := upd st.nonBackPreds w (st.nonBackPreds w ++ [v]) })
          st)
    st

/-- Step d of `findLoops` at header `w`: seed the pool `P` with the
union-find representative of every backedge source (skipping `w` itself,
which instead marks `w` as a self loop).  `none` models a diverging
`findSet` (never reached by the algorithm). -/
def stepDf (w : Nat) (acc : Option (FLState × List Nat)) (v : Nat) :
    Option (FLState × List Nat) :=
  match acc with
  | none => none
  | some (st, pool) =>
    if v ≠ w then
      match findSet st.ufParent v with
      | none => none
      | some (r, p) => some ({ st with ufParent := p }, pool ++ [r])
    else
      some ({ st with types := upd st.types w BB_SELF }, pool)

/-- Step d of `findLoops` at header `w` (fold of `stepDf` over the
backedge sources). -/
def stepD (st : FLState) (w : Nat) : Option (FLState × List Nat) :=
  (st.backPreds w).foldl (stepDf w) (some (st, []))

/-- Step e of `findLoops` for one popped worklist element `x`: examine each
recorded non-backedge predecessor's representative; a representative that
is not a DFS ancestor of `w` marks `w` irreducible and is forwarded into
`w`'s non-backedge list, otherwise it joins the pool and the worklist if
new.  (The scanned list belongs to `x` and the pushes target `w ≠ x`, so
folding over the snapshot matches the index-based source loop.) -/
def stepEf (w : Nat) (acc : Option (FLState × List Nat × List Nat)) (p : Nat) :
    Option (FLState × List Nat × List Nat) :=
  match acc with
  | none => none
  | some (st, pool, wl) =>
    match findSet st.ufParent p with
    | none => none
    | some (yd, pr) =>
      let st := { st with ufParent := pr }
      if ¬ isAncestor w yd st.last then
        some ({ st with types := upd st.types w BB_IRREDUCIBLE,
                        nonBackPreds := upd st.nonBackPreds w (st.nonBackPreds w ++ [yd]) },
              pool, wl)
      else if yd ≠ w then
        if pool.contains yd then some (st, pool, wl)
        else some (st, pool ++ [yd], wl ++ [yd])
      else some (st, pool, wl)

/-- One popped worklist element's examination (fold of `stepEf` over its
recorded non-backedge predecessors). -/
def stepE (w : Nat) (preds : List Nat) (st : FLState) (pool wl : List Nat) :
    Option (FLState × List Nat × List Nat) :=
  preds.foldl (stepEf w) (some (st, pool, wl))

/-- The worklist loop of `findLoops`: FIFO over `workList`, aborting the
whole analysis when a popped node's non-backedge predecessor list exceeds
`MAXNONBACKPREDS`. -/
def workLoop (w : Nat) : Nat → FLState → List Nat → List Nat → WorkRes
  | _, st, pool, [] => .done st pool
  | 0, st, _, _ :: _ => .abort st
  | fuel + 1, st, pool, x :: rest =>
    if (st.nonBackPreds x).length > MAXNONBACKPREDS then .abort st
    else
      match stepE w (st.nonBackPreds x) st pool rest with
      | none => .abort st
      | some (st, pool, wl) => workLoop w fuel st pool wl

/-- Per-pool-node body of the collapse phase at header `w` for the new
loop at arena index `li`: record the header array entry, union the node
into `w`, and either link its existing loop as a child or add its block
as a member. -/
def collapseStep (w li : Nat) (st : FLState) (node : Nat) : FLState :=
  let st := { st with headerA := upd st.headerA node w,
                      ufParent := upd st.ufParent node w }
  match st.ufLoop node with
  | some child => { st with lsg := st.lsg.setParent child li }
  | none =>
    let bb := (st.bbOf node).getD { name := 0, id := 0 }
    { st with lsg := st.lsg.modifyLoop li (fun l => l.addNode bb) }

/-- Collapse phase at header `w`: when the pool is non-empty or `w` is a
self loop, create a loop record headed by `w`'s block (with the source's
literal `isReducible` assignment), union every pool node into `w`, link
nested loops as children, add plain members, and store the loop. -/
def collapseW (st : FLState) (w : Nat) (nodeW : BasicBlock) (pool : List Nat) : FLState :=
  if pool.length > 0 ∨ st.types w = BB_SELF then
    let (li, lsg) := st.lsg.createNewLoop
    let lsg := lsg.modifyLoop li (fun l => l.setHeader nodeW)
    let lsg := lsg.modifyLoop li (fun l =>
      if st.types w = BB_IRREDUCIBLE then { l with isReducible := true }
      else { l with isReducible := false })
    let st := { st with lsg := lsg, ufLoop := upd st.ufLoop w (some li) }
    let st := pool.foldl (collapseStep w li) st
    { st with lsg := st.lsg.addLoop li }
  else st

/-- One iteration of step c at header `w` (skipping dead nodes). -/
def processW (st : FLState) (w : Nat) : OuterRes :=
  match st.bbOf w with
  | none => .done st
  | some nodeW =>
    match stepD st w with
    | none => .abort st
    | some (st, pool) =>
      let st := if pool.length ≠ 0 then { st with types := upd st.types w BB_REDUCIBLE } else st
      match workLoop w (pool.length + st.size + 1) st pool pool with
      | .abort st => .abort st
      | .done st pool => .done (collapseW st w nodeW pool)

/-- The outer loop of step c, iterating headers from the highest DFS
number down to 0. -/
def outerLoop : List Nat → FLState → OuterRes
  | [], st => .done st
  | w :: rest, st =>
    match processW st w with
    | .abort st => .abort st
    | .done st => outerLoop rest st

/-- The `FLState` after steps a and b, starting from forest `lsg`. -/
def initFL (g : CFG) (lsg : LSG) (dst : DfsState) : FLState :=
  stepB g
    { size := g.numNodes,
      nonBackPreds := fun _ => [], backPreds := fun _ => [],
      headerA := fun _ => 0, types := fun _ => BB_NONHEADER,
      numbers := dst.numbers, last := dst.last, bbOf := dst.bbOf,
      ufParent := fun n => n, ufLoop := fun _ => none, lsg := lsg }

/-- Run the outer loop over the remaining headers: an abort anywhere
yields the sentinel count 0 with the forest as mutated so far, normal
completion yields the forest's loop count. -/
def finishLoops (ws : List Nat) (st : FLState) : Nat × LSG :=
  match outerLoop ws st with
  | .abort st => (0, st.lsg)
  | .done st => (st.lsg.getNumLoops, st.lsg)

/-- `HavlakLoopFinder.findLoops` as a function from the graph and the
initial forest to the returned loop count and the final forest (the
source mutates the `LSG` it was constructed with).  The abort paths
return 0 and leave the forest as mutated so far. -/
def findLoopsSt (g : CFG) (lsg : LSG) : Nat × LSG :=
  match g.startNode with
  | none => (0, lsg)
  | some start =>
    match dfsNode g g.numNodes start dfsInit 0 with
    | none => (0, lsg)
    | some (dst, _) =>
      finishLoops (List.range g.numNodes).reverse (initFL g lsg dst)

/-- The loop count returned by `findLoops` run against a fresh forest. -/
def findLoops (g : CFG) : Nat :=
  (findLoopsSt g LSG.init).1

/-- The forest checksum observable after a `findLoops` run on a fresh
forest. -/
def analysisChecksum (g : CFG) : Nat :=
  (findLoopsSt g LSG.init).2.checksum

/-! ## Concrete example graphs -/

/-- Block `A` with name 0 and id 0. -/
def bbA : BasicBlock := { name := 0, id := 0 }

/-- The self-loop graph: start block `A` with the single edge `A → A`. -/
def gAA : CFG :=
  { numNodes := 1, startNode := some bbA,
    outEdges := fun n => if n = 0 then [bbA] else [],
    inEdges := fun n => if n = 0 then [bbA] else [] }

/-- The self-loop graph built through the cfg.ts construction surface,
with a block whose name (5) differs from its id (0). -/
def gMixB : GraphB :=
  let (b, g) := GraphB.empty.createNode 5 0
  g.newEdge b b

def bb0 : BasicBlock := { name := 0, id := 0 }

def bb1 : BasicBlock := { name := 1, id := 1 }

def bb2 : BasicBlock := { name := 2, id := 2 }

def bb3 : BasicBlock := { name := 3, id := 3 }

/-- A two-level loop nest: `0 → 1 → 2 → 3`, backedges `3 → 2` (inner loop)
and `2 → 1` (outer loop). -/
def g4 : CFG :=
  { numNodes := 4, startNode := some bb0,
    outEdges := fun n =>
      if n = 0 then [bb1] else if n = 1 then [bb2]
      else if n = 2 then [bb3, bb1] else if n = 3 then [bb2] else [],
    inEdges := fun n =>
      if n = 1 then [bb0, bb2] else if n = 2 then [bb1, bb3]
      else if n = 3 then [bb2] else [] }

/-! ## C1: the `isReducible` assignment (code bug) -/

/-- C1 (code bug evidence): on the self-loop graph `A → A` the code
returns total loop count 2 with the new loop headed by `A` and member set
`{A}` as the claim states, but sets `isReducible = false`: the source
assigns `isReducible = true` exactly when the header was classified
`BB_IRREDUCIBLE` (havlak.ts lines 418-422), the opposite of the claim and
of the code's own comment (`types(w) != BB_IRREDUCIBLE`). -/
theorem c1_selfloop_isReducible_inverted :
    findLoops gAA = 2 ∧
    ((findLoopsSt gAA LSG.init).2.arena[1]?.map
      (fun l => (l.header, l.basicBlocks, l.isReducible))) =
      some (some bbA, [bbA], false) := by
  exact ⟨by decide, by decide⟩

/-! ## C2: the per-loop checksum procedure -/

/-- The per-loop checksum procedure exactly as claim C2 states it: the
accumulator starts at the serial id and mixes, in order, isRoot,
isReducible, nestingLevel, depthLevel, the header block's integer **id**
when a header is set, each member block's integer **id** in insertion
order, and each child's recursive checksum in child-list order. -/
def claimLoopChecksumId (arena : List SimpleLoop) : Nat → Nat → Nat
  | 0, _ => 0
  | fuel + 1, i =>
    match arena[i]? with
    | none => 0
    | some l =>
      List.foldl mix l.counter
        ([if l.isRoot then 1 else 0, if l.isReducible then 1 else 0,
          l.nestingLevel, l.depthLevel]
         ++ (match l.header with | some h => [h.id] | none => [])
         ++ l.basicBlocks.map (fun b => b.id)
         ++ l.children.map (fun c => claimLoopChecksumId arena fuel c))

/-- The same procedure with the header's and the members' **name** in
place of the id — what `SimpleLoop.checksum` actually mixes. -/
def specLoopChecksumName (arena : List SimpleLoop) : Nat → Nat → Nat
  | 0, _ => 0
  | fuel + 1, i =>
    match arena[i]? with
    | none => 0
    | some l =>
      List.foldl mix l.counter
        ([if l.isRoot then 1 else 0, if l.isReducible then 1 else 0,
          l.nestingLevel, l.depthLevel]
         ++ (match l.header with | some h => [h.name] | none => [])
         ++ l.basicBlocks.map (fun b => b.name)
         ++ l.children.map (fun c => specLoopChecksumName arena fuel c))

/-- C2 counterexample: running the analysis through the construction
surface on a single self-looping block registered with name 5 and id 0,
the per-loop checksum of the discovered loop is **not** the value computed
by the claim's procedure (which mixes the header's and the member's id):
the code mixes the block's name. -/
theorem c2_checksum_mixes_name_not_id :
    checksumAt (findLoopsSt gMixB.toCFG LSG.init).2.arena 1 ≠
      claimLoopChecksumId (findLoopsSt gMixB.toCFG LSG.init).2.arena 2 1 := by
  decide

/-- C2 (amended): the per-loop checksum follows exactly the claimed
mixing procedure except that where the claim says the header's / each
member's integer id, the code mixes the block's **name**. -/
theorem c2_amended_checksum_procedure (arena : List SimpleLoop) :
    ∀ (fuel i : Nat), checksumAux arena fuel i = specLoopChecksumName arena fuel i := by
  intro fuel
  induction fuel with
  | zero => intro i; rfl
  | succ fuel ih =>
    intro i
    simp only [checksumAux, specLoopChecksumName]
    cases harena : arena[i]? with
    | none => rfl
    | some l =>
      dsimp only
      have hbase :
          List.foldl mix l.counter
            ([if l.isRoot then 1 else 0, if l.isReducible then 1 else 0,
              l.nestingLevel, l.depthLevel]
             ++ (match l.header with | some h => [h.name] | none => [])
             ++ l.basicBlocks.map (fun b => b.name)) = l.checksumBase := by
        cases hh : l.header <;>
          simp [SimpleLoop.checksumBase, hh, List.foldl_map, List.foldl_append]
      rw [List.foldl_append, hbase, List.foldl_map]
      exact List.foldl_ext _ _ _ (fun a c _ => by rw [ih])

/-! ## C3: the forest-level checksum order -/

/-- The forest checksum procedure exactly as claim C3 states it: seed with
the number of loops, mix each loop's checksum in the claimed storage order
(**root last**, the others in discovery order), then mix the root's
checksum once more. -/
def claimForestChecksumC3 (s : LSG) : Nat :=
  let ordered := (s.loops.filter (fun e => decide (e ≠ s.root))) ++ [s.root]
  mix (ordered.foldl (fun acc e => mix acc (checksumAt s.arena e)) s.loops.length)
    (checksumAt s.arena s.root)

/-- C3 counterexample: on the self-loop graph the forest checksum computed
by the code differs from the claim's root-stored-last procedure, because
the forest stores the root **first** (`loops[0]` is the root). -/
theorem c3_root_is_stored_first_not_last :
    LSG.checksum (findLoopsSt gAA LSG.init).2 ≠
      claimForestChecksumC3 (findLoopsSt gAA LSG.init).2 := by
  decide

/-! ## C8: edge construction does not validate endpoints -/

/-- Claim C8 as a proposition about the embedding: edge construction with
an unregistered endpoint "fails fast rather than silently proceeding",
i.e. it refuses to modify the graph. -/
def claimEdgeFailsFast : Prop :=
  ∀ (g : GraphB) (f t : BasicBlock),
    (g.registers f = false ∨ g.registers t = false) → g.newEdge f t = g

/-- A graph with the single registered block `A` (name 0, id 0). -/
def gOneNode : GraphB := (GraphB.empty.createNode 0 0).2

/-- A block never registered in `gOneNode`. -/
def bbX : BasicBlock := { name := 1, id := 1 }

/-- C8 counterexample: `bbX` is not registered in `gOneNode`, yet the
`BasicBlockEdge` constructor silently proceeds and appends the edge to the
graph's edge list — there is no fail-fast validation in the source. -/
theorem c8_edge_construction_not_validated :
    ¬ claimEdgeFailsFast ∧
    gOneNode.registers bbX = false ∧
    (gOneNode.newEdge bbA bbX).edgeList = [(bbA, bbX)] := by
  refine ⟨fun h => ?_, by decide, by decide⟩
  have h2 := congrArg GraphB.edgeList (h gOneNode bbA bbX (Or.inr (by decide)))
  have h3 : (gOneNode.newEdge bbA bbX).edgeList = [(bbA, bbX)] := by decide
  have h4 : gOneNode.edgeList = [] := by decide
  rw [h3, h4] at h2
  exact List.noConfusion h2

/-- C8 (amended): the `BasicBlockEdge` constructor is total and performs no
endpoint validation: for any two blocks, registered or not, it appends the
edge to the graph's edge list and wires the two adjacency vectors. -/
theorem c8_amended_edge_construction_total (g : GraphB) (f t : BasicBlock) :
    (g.newEdge f t).edgeList = g.edgeList ++ [(f, t)] ∧
    (g.newEdge f t).outMap f.name = g.outMap f.name ++ [t] ∧
    (g.newEdge f t).inMap t.name = g.inMap t.name ++ [f] ∧
    (g.newEdge f t).basicBlockMap = g.basicBlockMap ∧
    (g.newEdge f t).startNode = g.startNode := by
  refine ⟨rfl, ?_, ?_, rfl, rfl⟩
  · simp [GraphB.newEdge, upd]
  · simp [GraphB.newEdge, upd]

/-! ## C6: the analysis is a deterministic function of the graph -/

/-- C6: two independently built graphs that agree on the fields the
analysis reads (node count, start node, stored adjacency in order)
produce identical analysis results and identical forest checksums; in
particular each run against a fresh forest is a deterministic function of
the graph. -/
theorem c6_analysis_deterministic (g1 g2 : CFG)
    (hn : g1.numNodes = g2.numNodes) (hs : g1.startNode = g2.startNode)
    (ho : ∀ n, g1.outEdges n = g2.outEdges n) (hi : ∀ n, g1.inEdges n = g2.inEdges n) :
    findLoopsSt g1 LSG.init = findLoopsSt g2 LSG.init ∧
    findLoops g1 = findLoops g2 ∧ analysisChecksum g1 = analysisChecksum g2 := by
  have hg : g1 = g2 := by
    cases g1
    cases g2
    simp only [CFG.mk.injEq]
    exact ⟨hn, hs, funext ho, funext hi⟩
  subst hg
  exact ⟨rfl, rfl, rfl⟩

/-- The self-loop graph built independently through the cfg.ts
construction surface (same `createNode`/edge call sequence a driver would
issue for `gAA`). -/
def gAA2 : CFG :=
  (let p := GraphB.empty.createNode 0 0
   p.2.newEdge p.1 p.1).toCFG

/-- Witness for C6 at a concrete input: the hand-written `gAA` and the
independently built `gAA2` agree fieldwise, so their analysis results and
checksums coincide. -/
theorem c6_analysis_deterministic_witness :
    findLoopsSt gAA LSG.init = findLoopsSt gAA2 LSG.init ∧
    findLoops gAA = findLoops gAA2 ∧ analysisChecksum gAA = analysisChecksum gAA2 :=
  c6_analysis_deterministic gAA gAA2 rfl rfl (fun _ => rfl) (fun _ => rfl)

/-! ## C9: idempotence of the union-find representative -/

/-- The walk of `findSet` stops at a fixpoint of the parent map. -/
theorem findSetLoop_root_fix (parent : Nat → Nat) :
    ∀ (fuel n : Nat) (acc : List Nat) (r : Nat) (lst : List Nat),
      findSetLoop parent fuel n acc = some (r, lst) → parent r = r := by
  intro fuel
  induction fuel with
  | zero =>
    intro n acc r lst h
    simp only [findSetLoop] at h
    by_cases hp : parent n = n
    · simp [hp] at h
      cases h.1
      exact hp
    · simp [hp] at h
  | succ fuel ih =>
    intro n acc r lst h
    simp only [findSetLoop] at h
    by_cases hp : parent n = n
    · simp [hp] at h
      cases h.1
      exact hp
    · simp only [hp, if_false] at h
      exact ih _ _ _ _ h

/-- Path compression writes the same value (the root) everywhere, so a
compressed map agrees with an `if`-membership description. -/
theorem foldl_upd_const {v : Nat} (lst : List Nat) (p : Nat → Nat) (x : Nat) :
    (lst.foldl (fun q m => upd q m v) p) x = if x ∈ lst then v else p x := by
  induction lst generalizing p with
  | nil => simp
  | cons a rest ih =>
    simp only [List.foldl_cons, ih, List.mem_cons]
    by_cases hx : x ∈ rest
    · simp [hx]
    · by_cases hxa : x = a <;> simp [hx, hxa, upd]

/-- C9: the representative returned by `findSet` is idempotent: running
`findSet` again on the returned representative, in the state left behind
by the first call, returns the same representative and leaves the state
untouched (`node.find().find() == node.find()`). -/
theorem c9_findSet_idempotent (p : Nat → Nat) (n r : Nat) (p2 : Nat → Nat)
    (h : findSet p n = some (r, p2)) : findSet p2 r = some (r, p2) := by
  simp only [findSet] at h
  cases hl : findSetLoop p (n + 1) n [] with
  | none => rw [hl] at h; cases h
  | some pr =>
    rw [hl] at h
    obtain ⟨root, lst⟩ := pr
    simp only [Option.some.injEq, Prod.mk.injEq] at h
    obtain ⟨hr, hp2⟩ := h
    cases hr
    have hroot : p r = r := findSetLoop_root_fix p _ _ _ _ _ hl
    have hp2r : p2 r = r := by
      rw [← hp2]
      rw [foldl_upd_const]
      by_cases hm : r ∈ lst <;> simp [hm, hroot]
    have : findSetLoop p2 (r + 1) r [] = some (r, []) := by
      simp [findSetLoop, hp2r]
    simp [findSet, this]

/-- A parent map forming the chain `2 → 1 → 0` with root 0. -/
def chainP : Nat → Nat := fun n => if n = 2 then 1 else 0

/-- Witness for C9: on the concrete chain `2 → 1 → 0`, the first `findSet`
returns root 0 and compresses node 2; a second `findSet` on the returned
representative is the identity on both components. -/
theorem c9_findSet_idempotent_witness :
    findSet (upd chainP 2 0) 0 = some (0, upd chainP 2 0) :=
  c9_findSet_idempotent chainP 2 0 (upd chainP 2 0) rfl

/-! ## C7: the degeneracy abort -/

/-- An intermediate `findLoops` state whose node 1 has an oversized
non-backedge predecessor list (length 32769 > 32 * 1024), with a backedge
`1 → 0` so that processing header 0 reaches the worklist. -/
def stWL : FLState :=
  { size := 0,
    nonBackPreds := fun _ => List.replicate 32769 0,
    backPreds := fun n => if n = 0 then [1] else [],
    headerA := fun _ => 0, types := fun _ => BB_NONHEADER,
    numbers := fun _ => none, last := fun _ => 0,
    bbOf := fun n => if n = 0 then some bbA else none,
    ufParent := fun n => n, ufLoop := fun _ => none, lsg := LSG.init }

/-- `stWL` after the pool of header 0 was found non-empty. -/
def stWLabort : FLState :=
  { stWL with types := upd stWL.types 0 BB_REDUCIBLE }

/-- The DFS state left behind on the self-loop graph `gAA`. -/
def dstAA : DfsState :=
  { numbers := upd (fun _ => none) 0 (some 0), last := upd (fun _ => 0) 0 0,
    bbOf := upd (fun _ => none) 0 (some bbA), par := fun _ => none }

/-- C7: when the worklist expansion pops a node whose non-backedge
predecessor list exceeds `MAXNONBACKPREDS`, the worklist loop aborts; an
abort propagates through the header processing and the outer loop; and a
`findLoops` run (graph with a start node, DFS completed) is exactly the
outer-loop run, whose abort produces the sentinel result 0 rather than an
error. -/
theorem c7_degeneracy_guard_aborts_with_zero :
    (∀ (f w : Nat) (st : FLState) (pool : List Nat) (x : Nat) (rest : List Nat),
        (st.nonBackPreds x).length > MAXNONBACKPREDS →
        workLoop w (f + 1) st pool (x :: rest) = .abort st) ∧
    (∀ (st : FLState) (w : Nat) (nodeW : BasicBlock) (st1 stq : FLState) (pool : List Nat)
        (st2 : FLState),
        st.bbOf w = some nodeW →
        stepD st w = some (st1, pool) →
        stq = (if pool.length ≠ 0 then { st1 with types := upd st1.types w BB_REDUCIBLE }
               else st1) →
        workLoop w (pool.length + stq.size + 1) stq pool pool = .abort st2 →
        processW st w = .abort st2) ∧
    (∀ (w : Nat) (rest : List Nat) (st st2 : FLState),
        processW st w = .abort st2 →
        finishLoops (w :: rest) st = (0, st2.lsg)) ∧
    (∀ (g : CFG) (start : BasicBlock) (dst : DfsState) (k : Nat),
        g.startNode = some start →
        dfsNode g g.numNodes start dfsInit 0 = some (dst, k) →
        findLoopsSt g LSG.init =
          finishLoops (List.range g.numNodes).reverse (initFL g LSG.init dst) ∧
        findLoops g =
          (finishLoops (List.range g.numNodes).reverse (initFL g LSG.init dst)).1) := by
  refine ⟨?_, ?_, ?_, ?_⟩
  · intro f w st pool x rest h
    simp only [workLoop]
    rw [if_pos h]
  · intro st w nodeW st1 stq pool st2 hbb hd hq hwl
    simp only [processW, hbb, hd]
    rw [← hq, hwl]
  · intro w rest st st2 h
    simp [finishLoops, outerLoop, h]
  · intro g start dst k hs hdfs
    constructor
    · simp only [findLoopsSt, hs, hdfs]
    · simp only [findLoops, findLoopsSt, hs, hdfs]

/-- Witness for C7 at concrete inputs: the oversized state aborts the
worklist loop, the abort propagates to header processing and to the outer
run (sentinel 0 with the forest as it was), and on the concrete graph
`gAA` the `findLoops` pipeline is the outer-loop run. -/
theorem c7_degeneracy_guard_witness :
    workLoop 0 1 stWL [] [0] = .abort stWL ∧
    processW stWL 0 = .abort stWLabort ∧
    finishLoops [0] stWL = (0, LSG.init) ∧
    findLoopsSt gAA LSG.init =
      finishLoops (List.range gAA.numNodes).reverse (initFL gAA LSG.init dstAA) := by
  have hlen : ∀ m : Nat, (stWL.nonBackPreds m).length > MAXNONBACKPREDS := by
    intro m
    simp only [stWL, List.length_replicate]
    decide
  have h1 := c7_degeneracy_guard_aborts_with_zero.1 0 0 stWL [] 0 [] (hlen 0)
  have hwl := c7_degeneracy_guard_aborts_with_zero.1 1 0 stWLabort [1] 1 [] (hlen 1)
  have h2 := c7_degeneracy_guard_aborts_with_zero.2.1 stWL 0 bbA stWL stWLabort [1] stWLabort
    rfl rfl rfl hwl
  have h3 := c7_degeneracy_guard_aborts_with_zero.2.2.1 0 [] stWL stWLabort h2
  have h4 := (c7_degeneracy_guard_aborts_with_zero.2.2.2 gAA bbA dstAA 0 rfl rfl).1
  exact ⟨h1, h2, h3, h4⟩

/-! ## Forest invariants -/

def UfAbove (p : Nat → Nat) (k : Nat) : Prop :=
  ∀ n, p n = n ∨ k < p n

theorem findSetLoop_cases (p : Nat → Nat) (k : Nat) (hab : UfAbove p k) :
    ∀ (fuel n : Nat) (acc : List Nat) (r : Nat) (lst : List Nat),
      findSetLoop p fuel n acc = some (r, lst) → (r = n ∧ lst = acc) ∨ k < r := by
  intro fuel
  induction fuel with
  | zero =>
    intro n acc r lst h
    simp only [findSetLoop] at h
    by_cases hp : p n = n
    · simp [hp] at h
      exact Or.inl ⟨h.1.symm, h.2.symm⟩
    · simp [hp] at h
  | succ fuel ih =>
    intro n acc r lst h
    simp only [findSetLoop] at h
    by_cases hp : p n = n
    · simp [hp] at h
      exact Or.inl ⟨h.1.symm, h.2.symm⟩
    · simp only [hp, if_false] at h
      rcases ih _ _ _ _ h with h2 | h2
      · rcases hab n with h3 | h3
        · exact absurd h3 hp
        · exact Or.inr (h2.1 ▸ h3)
      · exact Or.inr h2

theorem findSet_above (p : Nat → Nat) (k : Nat) (hab : UfAbove p k) (v r : Nat)
    (p2 : Nat → Nat) (h : findSet p v = some (r, p2)) :
    (k < v → k < r) ∧ UfAbove p2 k := by
  simp only [findSet] at h
  cases hl : findSetLoop p (v + 1) v [] with
  | none => rw [hl] at h; cases h
  | some pr =>
    rw [hl] at h
    obtain ⟨root, lst⟩ := pr
    simp only [Option.some.injEq, Prod.mk.injEq] at h
    obtain ⟨hr, hp2⟩ := h
    cases hr
    have hroot : p r = r := findSetLoop_root_fix p _ _ _ _ _ hl
    have hcase := findSetLoop_cases p k hab _ _ _ _ _ hl
    have hp2x : ∀ x, p2 x = if x ∈ lst then r else p x := by
      intro x
      rw [← hp2, foldl_upd_const, hroot]
    rcases hcase with ⟨hre, hle⟩ | hkr
    · subst hre
      constructor
      · exact fun hkv => hkv
      · intro n
        rw [hp2x n]
        subst hle
        simp only [List.not_mem_nil, if_false]
        exact hab n
    · refine ⟨fun _ => hkr, ?_⟩
      intro n
      rw [hp2x n]
      by_cases hn : n ∈ lst
      · simp only [hn, if_true]
        by_cases hrn : r = n
        · exact Or.inl hrn
        · exact Or.inr hkr
      · simp only [hn, if_false]
        exact hab n

/-- Frame of the worklist phase: only `ufParent`, `types` and
`nonBackPreds` may change; everything else, in particular the forest, is
untouched. -/
def FrameE (st st2 : FLState) : Prop :=
  st2.size = st.size ∧ st2.backPreds = st.backPreds ∧ st2.headerA = st.headerA ∧
  st2.numbers = st.numbers ∧ st2.last = st.last ∧ st2.bbOf = st.bbOf ∧
  st2.ufLoop = st.ufLoop ∧ st2.lsg = st.lsg

theorem frameE_refl (st : FLState) : FrameE st st :=
  ⟨rfl, rfl, rfl, rfl, rfl, rfl, rfl, rfl⟩

theorem frameE_trans {a b c : FLState} (h1 : FrameE a b) (h2 : FrameE b c) : FrameE a c := by
  obtain ⟨x1, x2, x3, x4, x5, x6, x7, x8⟩ := h1
  obtain ⟨y1, y2, y3, y4, y5, y6, y7, y8⟩ := h2
  exact ⟨y1.trans x1, y2.trans x2, y3.trans x3, y4.trans x4, y5.trans x5,
    y6.trans x6, y7.trans x7, y8.trans x8⟩

theorem foldl_stepDf_none (w : Nat) (vs : List Nat) :
    vs.foldl (stepDf w) none = none := by
  induction vs with
  | nil => rfl
  | cons v vs ih => simpa [stepDf] using ih

theorem stepDf_skip (w v : Nat) (st0 : FLState) (pool0 : List Nat) (hv : v = w) :
    stepDf w (some (st0, pool0)) v =
      some ({ st0 with types := upd st0.types w BB_SELF }, pool0) := by
  subst hv
  simp [stepDf]

theorem stepDf_find (w v : Nat) (st0 : FLState) (pool0 : List Nat) (hv : v ≠ w)
    (r : Nat) (p2 : Nat → Nat) (hfs : findSet st0.ufParent v = some (r, p2)) :
    stepDf w (some (st0, pool0)) v =
      some ({ st0 with ufParent := p2 }, pool0 ++ [r]) := by
  unfold stepDf
  dsimp only
  rw [if_pos hv, hfs]

theorem stepDf_find_none (w v : Nat) (st0 : FLState) (pool0 : List Nat) (hv : v ≠ w)
    (hfs : findSet st0.ufParent v = none) :
    stepDf w (some (st0, pool0)) v = none := by
  unfold stepDf
  dsimp only
  rw [if_pos hv, hfs]

theorem stepD_fold_spec (w : Nat) :
    ∀ (vs : List Nat) (st0 : FLState) (pool0 : List Nat),
      UfAbove st0.ufParent w → (∀ v ∈ vs, w ≤ v) → (∀ n ∈ pool0, w < n) →
      vs.foldl (stepDf w) (some (st0, pool0)) = none ∨
      ∃ st1 pool1, vs.foldl (stepDf w) (some (st0, pool0)) = some (st1, pool1) ∧
        FrameE st0 st1 ∧ UfAbove st1.ufParent w ∧ ∀ n ∈ pool1, w < n := by
  intro vs
  induction vs with
  | nil =>
    intro st0 pool0 hab _ hpool
    exact Or.inr ⟨st0, pool0, rfl, frameE_refl st0, hab, hpool⟩
  | cons v vs ih =>
    intro st0 pool0 hab hvs hpool
    simp only [List.foldl_cons]
    by_cases hvw : v = w
    · rw [stepDf_skip w v st0 pool0 hvw]
      have := ih { st0 with types := upd st0.types w BB_SELF } pool0 hab
        (fun x hx => hvs x (List.mem_cons_of_mem v hx)) hpool
      rcases this with hnone | ⟨st1, pool1, heq, hfr, hab1, hp1⟩
      · exact Or.inl hnone
      · exact Or.inr ⟨st1, pool1, heq,
          frameE_trans hfr ⟨rfl, rfl, rfl, rfl, rfl, rfl, rfl, rfl⟩, hab1, hp1⟩
    · cases hfs : findSet st0.ufParent v with
      | none =>
        rw [stepDf_find_none w v st0 pool0 hvw hfs]
        exact Or.inl (foldl_stepDf_none w vs)
      | some rp =>
        obtain ⟨r, p2⟩ := rp
        have hva := findSet_above st0.ufParent w hab v r p2 hfs
        have hwv : w < v := lt_of_le_of_ne (hvs v (List.mem_cons_self v vs))
          (fun e => hvw e.symm)
        rw [stepDf_find w v st0 pool0 hvw r p2 hfs]
        have := ih { st0 with ufParent := p2 } (pool0 ++ [r]) hva.2
          (fun x hx => hvs x (List.mem_cons_of_mem v hx))
          (by
            intro n hn
            rcases List.mem_append.mp hn with hcase | hcase
            · exact hpool n hcase
            · rw [List.mem_singleton.mp hcase]
              exact hva.1 hwv)
        rcases this with hnone | ⟨st1, pool1, heq, hfr, hab1, hp1⟩
        · exact Or.inl hnone
        · exact Or.inr ⟨st1, pool1, heq,
            frameE_trans hfr ⟨rfl, rfl, rfl, rfl, rfl, rfl, rfl, rfl⟩, hab1, hp1⟩

theorem foldl_stepEf_none (w : Nat) (preds : List Nat) :
    preds.foldl (stepEf w) none = none := by
  induction preds with
  | nil => rfl
  | cons p preds ih => simpa [stepEf] using ih

theorem stepE_fold_spec (w : Nat) :
    ∀ (preds : List Nat) (st0 : FLState) (pool0 wl0 : List Nat),
      UfAbove st0.ufParent w → (∀ n ∈ pool0, w < n) →
      preds.foldl (stepEf w) (some (st0, pool0, wl0)) = none ∨
      ∃ st1 pool1 wl1,
        preds.foldl (stepEf w) (some (st0, pool0, wl0)) = some (st1, pool1, wl1) ∧
        FrameE st0 st1 ∧ UfAbove st1.ufParent w ∧ ∀ n ∈ pool1, w < n := by
  intro preds
  induction preds with
  | nil =>
    intro st0 pool0 wl0 hab hpool
    exact Or.inr ⟨st0, pool0, wl0, rfl, frameE_refl st0, hab, hpool⟩
  | cons p preds ih =>
    intro st0 pool0 wl0 hab hpool
    simp only [List.foldl_cons]
    cases hfs : findSet st0.ufParent p with
    | none =>
      have hstep : stepEf w (some (st0, pool0, wl0)) p = none := by
        unfold stepEf
        dsimp only
        rw [hfs]
      rw [hstep]
      exact Or.inl (foldl_stepEf_none w preds)
    | some rp =>
      obtain ⟨yd, pr⟩ := rp
      have hab2 : UfAbove pr w := (findSet_above st0.ufParent w hab p yd pr hfs).2
      by_cases hanc : isAncestor w yd st0.last = true
      · by_cases hydw : yd = w
        · have hstep : stepEf w (some (st0, pool0, wl0)) p =
              some ({ st0 with ufParent := pr }, pool0, wl0) := by
            unfold stepEf
            dsimp only
            rw [hfs]
            dsimp only
            rw [if_neg (by simpa using hanc), if_neg (by simpa using hydw)]
          rw [hstep]
          have := ih { st0 with ufParent := pr } pool0 wl0 hab2 hpool
          rcases this with hnone | ⟨st1, pool1, wl1, heq, hfr, hab1, hp1⟩
          · exact Or.inl hnone
          · exact Or.inr ⟨st1, pool1, wl1, heq,
              frameE_trans hfr ⟨rfl, rfl, rfl, rfl, rfl, rfl, rfl, rfl⟩, hab1, hp1⟩
        · by_cases hmem : pool0.contains yd
          · have hstep : stepEf w (some (st0, pool0, wl0)) p =
                some ({ st0 with ufParent := pr }, pool0, wl0) := by
              unfold stepEf
              dsimp only
              rw [hfs]
              dsimp only
              rw [if_neg (by simpa using hanc), if_pos hydw, if_pos hmem]
            rw [hstep]
            have := ih { st0 with ufParent := pr } pool0 wl0 hab2 hpool
            rcases this with hnone | ⟨st1, pool1, wl1, heq, hfr, hab1, hp1⟩
            · exact Or.inl hnone
            · exact Or.inr ⟨st1, pool1, wl1, heq,
                frameE_trans hfr ⟨rfl, rfl, rfl, rfl, rfl, rfl, rfl, rfl⟩, hab1, hp1⟩
          · have hstep : stepEf w (some (st0, pool0, wl0)) p =
                some ({ st0 with ufParent := pr }, pool0 ++ [yd], wl0 ++ [yd]) := by
              unfold stepEf
              dsimp only
              rw [hfs]
              dsimp only
              rw [if_neg (by simpa using hanc), if_pos hydw, if_neg hmem]
            rw [hstep]
            have hwyd : w < yd := by
              have h2 : w ≤ yd ∧ yd ≤ st0.last w := by simpa [isAncestor] using hanc
              exact lt_of_le_of_ne h2.1 (fun e => hydw e.symm)
            have := ih { st0 with ufParent := pr } (pool0 ++ [yd]) (wl0 ++ [yd]) hab2
              (by
                intro n hn
                rcases List.mem_append.mp hn with hcase | hcase
                · exact hpool n hcase
                · rw [List.mem_singleton.mp hcase]
                  exact hwyd)
            rcases this with hnone | ⟨st1, pool1, wl1, heq, hfr, hab1, hp1⟩
            · exact Or.inl hnone
            · exact Or.inr ⟨st1, pool1, wl1, heq,
                frameE_trans hfr ⟨rfl, rfl, rfl, rfl, rfl, rfl, rfl, rfl⟩, hab1, hp1⟩
      · have hstep : stepEf w (some (st0, pool0, wl0)) p =
            some ({ st0 with
                      types := upd st0.types w BB_IRREDUCIBLE,
                      ufParent := pr,
                      nonBackPreds := upd st0.nonBackPreds w (st0.nonBackPreds w ++ [yd]) },
                  pool0, wl0) := by
          unfold stepEf
          dsimp only
          rw [hfs]
          dsimp only
          rw [if_pos (by simpa using hanc)]
        rw [hstep]
        have := ih { st0 with
                      types := upd st0.types w BB_IRREDUCIBLE,
                      ufParent := pr,
                      nonBackPreds := upd st0.nonBackPreds w (st0.nonBackPreds w ++ [yd]) }
          pool0 wl0 hab2 hpool
        rcases this with hnone | ⟨st1, pool1, wl1, heq, hfr, hab1, hp1⟩
        · exact Or.inl hnone
        · exact Or.inr ⟨st1, pool1, wl1, heq,
            frameE_trans hfr ⟨rfl, rfl, rfl, rfl, rfl, rfl, rfl, rfl⟩, hab1, hp1⟩

theorem workLoop_spec (w : Nat) :
    ∀ (fuel : Nat) (st0 : FLState) (pool0 wl0 : List Nat),
      UfAbove st0.ufParent w → (∀ n ∈ pool0, w < n) →
      (∃ st1, workLoop w fuel st0 pool0 wl0 = .abort st1 ∧ FrameE st0 st1 ∧
        UfAbove st1.ufParent w) ∨
      (∃ st1 pool1, workLoop w fuel st0 pool0 wl0 = .done st1 pool1 ∧ FrameE st0 st1 ∧
        UfAbove st1.ufParent w ∧ ∀ n ∈ pool1, w < n) := by
  intro fuel
  induction fuel with
  | zero =>
    intro st0 pool0 wl0 hab hpool
    cases wl0 with
    | nil => exact Or.inr ⟨st0, pool0, rfl, frameE_refl st0, hab, hpool⟩
    | cons x rest => exact Or.inl ⟨st0, rfl, frameE_refl st0, hab⟩
  | succ fuel ih =>
    intro st0 pool0 wl0 hab hpool
    cases wl0 with
    | nil => exact Or.inr ⟨st0, pool0, rfl, frameE_refl st0, hab, hpool⟩
    | cons x rest =>
      simp only [workLoop]
      by_cases hlen : (st0.nonBackPreds x).length > MAXNONBACKPREDS
      · rw [if_pos hlen]
        exact Or.inl ⟨st0, rfl, frameE_refl st0, hab⟩
      · rw [if_neg hlen]
        have hse := stepE_fold_spec w (st0.nonBackPreds x) st0 pool0 rest hab hpool
        rcases hse with hnone | ⟨st1, pool1, wl1, heq, hfr, hab1, hp1⟩
        · unfold stepE
          rw [hnone]
          exact Or.inl ⟨st0, rfl, frameE_refl st0, hab⟩
        · unfold stepE
          rw [heq]
          rcases ih st1 pool1 wl1 hab1 hp1 with
            ⟨st2, he2, hf2, ha2⟩ | ⟨st2, pool2, he2, hf2, ha2, hp2⟩
          · exact Or.inl ⟨st2, he2, frameE_trans hfr hf2, ha2⟩
          · exact Or.inr ⟨st2, pool2, he2, frameE_trans hfr hf2, ha2, hp2⟩

/-- Structural well-formedness of the loop forest: root at index 0 and
stored first, every parent link points to a strictly later-created loop
inside the arena, the root has no parent, children were created strictly
before their parent, and every non-root loop has its header as the first
member block. -/
structure ForestInv (s : LSG) : Prop where
  rootIdx : s.root = 0
  loopsHead : ∃ rest, s.loops = 0 :: rest
  arenaLen : 1 ≤ s.arena.length
  parentGt : ∀ (i : Nat) (l : SimpleLoop) (p : Nat),
    s.arena[i]? = some l → l.parent = some p → i < p ∧ p < s.arena.length
  rootNoParent : ∀ (l : SimpleLoop), s.arena[0]? = some l → l.parent = none
  childLt : ∀ (i : Nat) (l : SimpleLoop) (c : Nat),
    s.arena[i]? = some l → c ∈ l.children → c < i
  headerMem : ∀ (i : Nat) (l : SimpleLoop), s.arena[i]? = some l → 1 ≤ i →
    ∃ (h : BasicBlock) (rest2 : List BasicBlock),
      l.header = some h ∧ l.basicBlocks = h :: rest2 ∧ l.isRoot = false

/-- The loop-finder state invariant: the forest is well-formed and the
node-to-loop map only points at created non-root loops. -/
structure StInv (st : FLState) : Prop where
  forest : ForestInv st.lsg
  ufLoopB : ∀ (n j : Nat), st.ufLoop n = some j → 1 ≤ j ∧ j < st.lsg.arena.length

theorem forestInv_init : ForestInv LSG.init := by
  refine ⟨rfl, ⟨[], rfl⟩, by decide, ?_, ?_, ?_, ?_⟩
  · intro i l p hi hp
    cases i with
    | zero =>
      simp only [LSG.init, List.getElem?_cons_zero, Option.some.injEq] at hi
      rw [← hi] at hp
      cases hp
    | succ n => simp [LSG.init] at hi
  · intro l hi
    simp only [LSG.init, List.getElem?_cons_zero, Option.some.injEq] at hi
    rw [← hi]
    rfl
  · intro i l c hi hc
    cases i with
    | zero =>
      simp only [LSG.init, List.getElem?_cons_zero, Option.some.injEq] at hi
      rw [← hi] at hc
      simp [SimpleLoop.setNestingLevel] at hc
    | succ n => simp [LSG.init] at hi
  · intro i l hi h1
    cases i with
    | zero => exact absurd h1 (by decide)
    | succ n => simp [LSG.init] at hi

theorem modifyLoop_arena_getElem (s : LSG) (i : Nat) (f : SimpleLoop → SimpleLoop) (j : Nat) :
    (s.modifyLoop i f).arena[j]? =
      if i = j then
        (if i < s.arena.length then some (f (s.arena.getD i { counter := 0 })) else none)
      else s.arena[j]? := by
  simp [LSG.modifyLoop, List.getElem?_set]

theorem modifyLoop_arena_length (s : LSG) (i : Nat) (f : SimpleLoop → SimpleLoop) :
    (s.modifyLoop i f).arena.length = s.arena.length := by
  simp [LSG.modifyLoop]

theorem getD_of_getElem (l : List SimpleLoop) (i : Nat) (x : SimpleLoop)
    (h : l[i]? = some x) : l.getD i { counter := 0 } = x := by
  rw [List.getD_eq_getElem?_getD, h]
  rfl

/-- Entry characterization of `setParent child li` for `child ≠ li`, both
in range. -/
theorem setParent_arena_getElem (s : LSG) (child li : Nat) (lc ll : SimpleLoop)
    (hchild : s.arena[child]? = some lc) (hli : s.arena[li]? = some ll)
    (hne : child ≠ li) (j : Nat) :
    (s.setParent child li).arena[j]? =
      if child = j then some { lc with parent := some li }
      else if li = j then some (ll.addChildLoop child)
      else s.arena[j]? := by
  have hchildlt : child < s.arena.length := by
    by_contra hge
    rw [List.getElem?_eq_none (Nat.le_of_not_lt hge)] at hchild
    cases hchild
  have hlilt : li < s.arena.length := by
    by_contra hge
    rw [List.getElem?_eq_none (Nat.le_of_not_lt hge)] at hli
    cases hli
  have hgd2 : (s.modifyLoop child (fun l => { l with parent := some li })).arena.getD li
      { counter := 0 } = ll := by
    apply getD_of_getElem
    rw [modifyLoop_arena_getElem]
    rw [if_neg hne]
    exact hli
  unfold LSG.setParent
  rw [modifyLoop_arena_getElem, modifyLoop_arena_length, modifyLoop_arena_getElem,
    getD_of_getElem _ _ _ hchild, hgd2]
  split_ifs <;> first | rfl | omega

/-- Frame of the collapse phase: only `lsg`, `headerA` and `ufParent`
change. -/
def FrameC (st st2 : FLState) : Prop :=
  st2.size = st.size ∧ st2.nonBackPreds = st.nonBackPreds ∧ st2.backPreds = st.backPreds ∧
  st2.types = st.types ∧ st2.numbers = st.numbers ∧ st2.last = st.last ∧
  st2.bbOf = st.bbOf ∧ st2.ufLoop = st.ufLoop

theorem frameC_refl (st : FLState) : FrameC st st :=
  ⟨rfl, rfl, rfl, rfl, rfl, rfl, rfl, rfl⟩

theorem frameC_trans {a b c : FLState} (h1 : FrameC a b) (h2 : FrameC b c) : FrameC a c := by
  obtain ⟨x1, x2, x3, x4, x5, x6, x7, x8⟩ := h1
  obtain ⟨y1, y2, y3, y4, y5, y6, y7, y8⟩ := h2
  exact ⟨y1.trans x1, y2.trans x2, y3.trans x3, y4.trans x4, y5.trans x5,
    y6.trans x6, y7.trans x7, y8.trans x8⟩

theorem collapseStep_spec (w li : Nat) (st0 : FLState) (node : Nat)
    (hnode : w < node) (hli1 : 1 ≤ li)
    (hufb : ∀ (n j : Nat), n ≠ w → st0.ufLoop n = some j → 1 ≤ j ∧ j < li)
    (halen : st0.lsg.arena.length = li + 1)
    (hinv : ForestInv st0.lsg) :
    FrameC st0 (collapseStep w li st0 node) ∧
    ForestInv (collapseStep w li st0 node).lsg ∧
    (collapseStep w li st0 node).lsg.arena.length = li + 1 ∧
    (collapseStep w li st0 node).lsg.loops = st0.lsg.loops ∧
    (collapseStep w li st0 node).ufParent = upd st0.ufParent node w := by
  have hnw : node ≠ w := fun e => absurd (e ▸ hnode) (lt_irrefl w)
  have hlilt : li < st0.lsg.arena.length := by omega
  obtain ⟨ll, hll⟩ : ∃ ll, st0.lsg.arena[li]? = some ll :=
    ⟨st0.lsg.arena[li], List.getElem?_eq_getElem hlilt⟩
  cases hufl : st0.ufLoop node with
  | none =>
    unfold collapseStep
    dsimp only
    rw [hufl]
    dsimp only
    refine ⟨⟨rfl, rfl, rfl, rfl, rfl, rfl, rfl, rfl⟩, ?_, ?_, rfl, rfl⟩
    · constructor
      · exact hinv.rootIdx
      · exact hinv.loopsHead
      · rw [modifyLoop_arena_length]; exact hinv.arenaLen
      · intro i l p hi hp
        rw [modifyLoop_arena_getElem] at hi
        by_cases hil : li = i
        · rw [if_pos hil, if_pos (hil ▸ hlilt)] at hi
          rw [getD_of_getElem _ _ _ hll] at hi
          cases hi
          subst hil
          have := hinv.parentGt li ll p hll hp
          rw [modifyLoop_arena_length]
          exact this
        · rw [if_neg hil] at hi
          rw [modifyLoop_arena_length]
          exact hinv.parentGt i l p hi hp
      · intro l hi
        rw [modifyLoop_arena_getElem] at hi
        rw [if_neg (by omega : ¬ li = 0)] at hi
        exact hinv.rootNoParent l hi
      · intro i l c hi hc
        rw [modifyLoop_arena_getElem] at hi
        by_cases hil : li = i
        · rw [if_pos hil, if_pos (hil ▸ hlilt)] at hi
          rw [getD_of_getElem _ _ _ hll] at hi
          cases hi
          subst hil
          exact hinv.childLt li ll c hll hc
        · rw [if_neg hil] at hi
          exact hinv.childLt i l c hi hc
      · intro i l hi h1
        rw [modifyLoop_arena_getElem] at hi
        by_cases hil : li = i
        · rw [if_pos hil, if_pos (hil ▸ hlilt)] at hi
          rw [getD_of_getElem _ _ _ hll] at hi
          cases hi
          obtain ⟨h, rest2, hh, hbb, hroot⟩ := hinv.headerMem li ll hll (hil ▸ h1)
          exact ⟨h, rest2 ++ [(st0.bbOf node).getD { name := 0, id := 0 }],
            hh, by simp [SimpleLoop.addNode, hbb], hroot⟩
        · rw [if_neg hil] at hi
          exact hinv.headerMem i l hi h1
    · rw [modifyLoop_arena_length]; exact halen
  | some child =>
    unfold collapseStep
    dsimp only
    rw [hufl]
    dsimp only
    obtain ⟨hc1, hclt⟩ := hufb node child hnw hufl
    have hcltlen : child < st0.lsg.arena.length := by omega
    obtain ⟨lc, hlc⟩ : ∃ lc, st0.lsg.arena[child]? = some lc :=
      ⟨st0.lsg.arena[child], List.getElem?_eq_getElem hcltlen⟩
    have hcne : child ≠ li := by omega
    have hchar := setParent_arena_getElem st0.lsg child li lc ll hlc hll hcne
    refine ⟨⟨rfl, rfl, rfl, rfl, rfl, rfl, rfl, rfl⟩, ?_, ?_, rfl, rfl⟩
    · constructor
      · exact hinv.rootIdx
      · exact hinv.loopsHead
      · unfold LSG.setParent
        rw [modifyLoop_arena_length, modifyLoop_arena_length]
        exact hinv.arenaLen
      · intro i l p hi hp
        have hlen2 : (st0.lsg.setParent child li).arena.length = st0.lsg.arena.length := by
          unfold LSG.setParent
          rw [modifyLoop_arena_length, modifyLoop_arena_length]
        rw [hchar i] at hi
        rw [hlen2]
        by_cases h1 : child = i
        · rw [if_pos h1] at hi
          cases hi
          simp only at hp
          cases hp
          subst h1
          omega
        · rw [if_neg h1] at hi
          by_cases h2 : li = i
          · rw [if_pos h2] at hi
            cases hi
            simp only [SimpleLoop.addChildLoop] at hp
            have := hinv.parentGt li ll p hll hp
            subst h2
            exact this
          · rw [if_neg h2] at hi
            exact hinv.parentGt i l p hi hp
      · intro l hi
        rw [hchar 0] at hi
        rw [if_neg (by omega : ¬ child = 0), if_neg (by omega : ¬ li = 0)] at hi
        exact hinv.rootNoParent l hi
      · intro i l c hi hc
        rw [hchar i] at hi
        by_cases h1 : child = i
        · rw [if_pos h1] at hi
          cases hi
          simp only at hc
          subst h1
          exact hinv.childLt child lc c hlc hc
        · rw [if_neg h1] at hi
          by_cases h2 : li = i
          · rw [if_pos h2] at hi
            cases hi
            simp only [SimpleLoop.addChildLoop] at hc
            rcases List.mem_append.mp hc with hcase | hcase
            · have := hinv.childLt li ll c hll hcase
              omega
            · rw [List.mem_singleton.mp hcase]
              omega
          · rw [if_neg h2] at hi
            exact hinv.childLt i l c hi hc
      · intro i l hi h1
        rw [hchar i] at hi
        by_cases hc1i : child = i
        · rw [if_pos hc1i] at hi
          cases hi
          obtain ⟨h, rest2, hh, hbb, hroot⟩ := hinv.headerMem child lc hlc (hc1i ▸ h1)
          exact ⟨h, rest2, hh, hbb, hroot⟩
        · rw [if_neg hc1i] at hi
          by_cases h2 : li = i
          · rw [if_pos h2] at hi
            cases hi
            obtain ⟨h, rest2, hh, hbb, hroot⟩ := hinv.headerMem li ll hll (h2 ▸ h1)
            exact ⟨h, rest2, hh, hbb, hroot⟩
          · rw [if_neg h2] at hi
            exact hinv.headerMem i l hi h1
    · unfold LSG.setParent
      rw [modifyLoop_arena_length, modifyLoop_arena_length]
      exact halen

theorem collapseFold_spec (w li : Nat) :
    ∀ (pool : List Nat) (st0 : FLState),
      (∀ n ∈ pool, w < n) → 1 ≤ li →
      (∀ (n j : Nat), n ≠ w → st0.ufLoop n = some j → 1 ≤ j ∧ j < li) →
      st0.lsg.arena.length = li + 1 →
      ForestInv st0.lsg →
      FrameC st0 (pool.foldl (collapseStep w li) st0) ∧
      ForestInv (pool.foldl (collapseStep w li) st0).lsg ∧
      (pool.foldl (collapseStep w li) st0).lsg.arena.length = li + 1 ∧
      (∀ k, k < w → UfAbove st0.ufParent k →
        UfAbove (pool.foldl (collapseStep w li) st0).ufParent k) := by
  intro pool
  induction pool with
  | nil =>
    intro st0 _ _ _ halen hinv
    exact ⟨frameC_refl st0, hinv, halen, fun _ _ hab => hab⟩
  | cons node pool ih =>
    intro st0 hpool hli1 hufb halen hinv
    simp only [List.foldl_cons]
    have hstep := collapseStep_spec w li st0 node (hpool node (List.mem_cons_self node pool))
      hli1 hufb halen hinv
    obtain ⟨hfr, hinv1, halen1, _, hup⟩ := hstep
    obtain ⟨e1, e2, e3, e4, e5, e6, e7, e8⟩ := hfr
    have hufb1 : ∀ (n j : Nat), n ≠ w → (collapseStep w li st0 node).ufLoop n = some j →
        1 ≤ j ∧ j < li := by
      intro n j hn hj
      rw [e8] at hj
      exact hufb n j hn hj
    have := ih (collapseStep w li st0 node)
      (fun x hx => hpool x (List.mem_cons_of_mem node hx)) hli1 hufb1 halen1 hinv1
    obtain ⟨hfr2, hinv2, halen2, hab2⟩ := this
    refine ⟨frameC_trans ⟨e1, e2, e3, e4, e5, e6, e7, e8⟩ hfr2, hinv2, halen2, ?_⟩
    intro k hk hab
    apply hab2 k hk
    rw [hup]
    intro n
    by_cases hn : n = node
    · subst hn
      right
      simpa [upd] using hk
    · have : upd st0.ufParent node w n = st0.ufParent n := by simp [upd, hn]
      rw [this]
      exact hab n

theorem collapseW_spec (st : FLState) (w : Nat) (nodeW : BasicBlock) (pool : List Nat)
    (hpool : ∀ n ∈ pool, w < n) (hinv : StInv st) :
    StInv (collapseW st w nodeW pool) ∧
    (collapseW st w nodeW pool).backPreds = st.backPreds ∧
    (∀ k, k < w → UfAbove st.ufParent k → UfAbove (collapseW st w nodeW pool).ufParent k) := by
  by_cases hg : pool.length > 0 ∨ st.types w = BB_SELF
  · have hli1 : 1 ≤ st.lsg.arena.length := hinv.forest.arenaLen
    -- names for the intermediate forests
    set li := st.lsg.arena.length with hlidef
    set blank : SimpleLoop := ({ counter := st.lsg.loopCounter }) with hblank
    set s1 : LSG := ({ { st.lsg with arena := st.lsg.arena ++ [blank] } with
                       loopCounter := st.lsg.loopCounter + 1 }) with hs1
    set f2 : SimpleLoop → SimpleLoop := fun l =>
      if st.types w = BB_IRREDUCIBLE then { l with isReducible := true }
      else { l with isReducible := false } with hf2
    set s2 : LSG := s1.modifyLoop li (fun l => l.setHeader nodeW) with hs2
    set s3 : LSG := s2.modifyLoop li f2 with hs3
    set newL : SimpleLoop := f2 (blank.setHeader nodeW) with hnewL
    set stA : FLState := ({ { st with lsg := s3 } with
                            ufLoop := upd st.ufLoop w (some li) }) with hstA
    have hcw : collapseW st w nodeW pool =
        { (pool.foldl (collapseStep w li) stA) with
          lsg := (pool.foldl (collapseStep w li) stA).lsg.addLoop li } := by
      unfold collapseW
      rw [if_pos hg]
      rfl
    -- facts about the freshly created loop record
    have hnewparent : newL.parent = none := by
      rw [hnewL, hf2]
      by_cases hirr : st.types w = BB_IRREDUCIBLE <;>
        simp [hirr, SimpleLoop.setHeader, hblank]
    have hnewchildren : newL.children = [] := by
      rw [hnewL, hf2]
      by_cases hirr : st.types w = BB_IRREDUCIBLE <;>
        simp [hirr, SimpleLoop.setHeader, hblank]
    have hnewheader : newL.header = some nodeW ∧ newL.basicBlocks = [nodeW] ∧
        newL.isRoot = false := by
      rw [hnewL, hf2]
      by_cases hirr : st.types w = BB_IRREDUCIBLE <;>
        simp [hirr, SimpleLoop.setHeader, hblank]
    -- entry characterization of the arena after creation and header setup
    have hs1at : s1.arena[li]? = some blank := by
      rw [hs1]
      exact List.getElem?_concat_length _ _
    have hs1len : s1.arena.length = li + 1 := by
      rw [hs1]
      simp
    have hs2len : s2.arena.length = li + 1 := by
      rw [hs2, modifyLoop_arena_length]
      exact hs1len
    have hs3len : s3.arena.length = li + 1 := by
      rw [hs3, modifyLoop_arena_length]
      exact hs2len
    have hs2at : s2.arena[li]? = some (blank.setHeader nodeW) := by
      rw [hs2, modifyLoop_arena_getElem, if_pos rfl, if_pos (by omega), 
        getD_of_getElem _ _ _ hs1at]
    have hchar : ∀ j, s3.arena[j]? = if li = j then some newL else st.lsg.arena[j]? := by
      intro j
      rw [hs3, modifyLoop_arena_getElem]
      by_cases hj : li = j
      · rw [if_pos hj, if_pos hj, if_pos (by omega), getD_of_getElem _ _ _ hs2at, hnewL]
      · rw [if_neg hj, if_neg hj, hs2, modifyLoop_arena_getElem, if_neg hj, hs1]
        by_cases hjlt : j < li
        · exact List.getElem?_append_left hjlt
        · rw [List.getElem?_eq_none (by simpa using by omega : st.lsg.arena.length ≤ j),
            List.getElem?_eq_none (by simp; omega)]
    have hs3loops : s3.loops = st.lsg.loops := by
      rw [hs3, hs2, hs1]
      rfl
    have hs3root : s3.root = st.lsg.root := by
      rw [hs3, hs2, hs1]
      rfl
    -- the forest invariant after creating the new headed loop
    have hinv3 : ForestInv s3 := by
      constructor
      · rw [hs3root]; exact hinv.forest.rootIdx
      · rw [hs3loops]; exact hinv.forest.loopsHead
      · rw [hs3len]; omega
      · intro i l p hi hp
        rw [hchar i] at hi
        rw [hs3len]
        by_cases hj : li = i
        · rw [if_pos hj] at hi
          cases hi
          rw [hnewparent] at hp
          cases hp
        · rw [if_neg hj] at hi
          have := hinv.forest.parentGt i l p hi hp
          omega
      · intro l hi
        rw [hchar 0, if_neg (by omega)] at hi
        exact hinv.forest.rootNoParent l hi
      · intro i l c hi hc
        rw [hchar i] at hi
        by_cases hj : li = i
        · rw [if_pos hj] at hi
          cases hi
          rw [hnewchildren] at hc
          cases hc
        · rw [if_neg hj] at hi
          exact hinv.forest.childLt i l c hi hc
      · intro i l hi h1
        rw [hchar i] at hi
        by_cases hj : li = i
        · rw [if_pos hj] at hi
          cases hi
          exact ⟨nodeW, [], hnewheader.1, hnewheader.2.1, hnewheader.2.2⟩
        · rw [if_neg hj] at hi
          exact hinv.forest.headerMem i l hi h1
    have hufbA : ∀ (n j : Nat), n ≠ w → stA.ufLoop n = some j → 1 ≤ j ∧ j < li := by
      intro n j hn hj
      rw [hstA] at hj
      simp only [upd, hn, if_false] at hj
      exact hinv.ufLoopB n j hj
    have halenA : stA.lsg.arena.length = li + 1 := by
      rw [hstA]
      exact hs3len
    have hinvA : ForestInv stA.lsg := by
      rw [hstA]
      exact hinv3
    have hfold := collapseFold_spec w li pool stA hpool hli1 hufbA halenA hinvA
    obtain ⟨hfrB, hinvB, halenB, habB⟩ := hfold
    obtain ⟨e1, e2, e3, e4, e5, e6, e7, e8⟩ := hfrB
    rw [hcw]
    refine ⟨⟨?_, ?_⟩, ?_, ?_⟩
    · constructor
      · exact hinvB.rootIdx
      · obtain ⟨rest, hrest⟩ := hinvB.loopsHead
        exact ⟨rest ++ [li], by simp [LSG.addLoop, hrest]⟩
      · simp only [LSG.addLoop]
        exact hinvB.arenaLen
      · simp only [LSG.addLoop]
        exact hinvB.parentGt
      · simp only [LSG.addLoop]
        exact hinvB.rootNoParent
      · simp only [LSG.addLoop]
        exact hinvB.childLt
      · simp only [LSG.addLoop]
        exact hinvB.headerMem
    · intro n j hj
      simp only [LSG.addLoop] at hj ⊢
      rw [e8, hstA] at hj
      simp only [upd] at hj
      rw [halenB]
      by_cases hn : n = w
      · rw [if_pos hn] at hj
        simp only [Option.some.injEq] at hj
        subst hj
        exact ⟨hli1, Nat.lt_succ_self li⟩
      · rw [if_neg hn] at hj
        have hb := hinv.ufLoopB n j hj
        have hlt : j < li := by rw [hlidef]; exact hb.2
        exact ⟨hb.1, Nat.lt_succ_of_lt hlt⟩
    · simp only
      rw [e3, hstA]
    · intro k hk hab
      simp only
      apply habB k hk
      rw [hstA]
      exact hab
  · unfold collapseW
    rw [if_neg hg]
    exact ⟨hinv, rfl, fun _ _ hab => hab⟩

theorem UfAbove_mono {p : Nat → Nat} {w k : Nat} (h : UfAbove p w) (hk : k ≤ w) :
    UfAbove p k := by
  intro n
  rcases h n with h1 | h1
  · exact Or.inl h1
  · exact Or.inr (lt_of_le_of_lt hk h1)

theorem StInv_of_FrameE {st st1 : FLState} (hfr : FrameE st st1) (hinv : StInv st) :
    StInv st1 := by
  obtain ⟨_, _, _, _, _, _, h7, h8⟩ := hfr
  constructor
  · rw [h8]
    exact hinv.forest
  · intro n j hj
    rw [h7] at hj
    rw [h8]
    exact hinv.ufLoopB n j hj

theorem processW_spec (st : FLState) (w : Nat)
    (hinv : StInv st) (hab : UfAbove st.ufParent w)
    (hbp : ∀ v ∈ st.backPreds w, w ≤ v) :
    ∃ st1, (processW st w = .abort st1 ∨ processW st w = .done st1) ∧ StInv st1 ∧
      st1.backPreds = st.backPreds ∧ (∀ k, k < w → UfAbove st1.ufParent k) := by
  unfold processW
  cases hbb : st.bbOf w with
  | none =>
    exact ⟨st, Or.inr rfl, hinv, rfl, fun k hk => UfAbove_mono hab (Nat.le_of_lt hk)⟩
  | some nodeW =>
    have hd := stepD_fold_spec w (st.backPreds w) st [] hab hbp (by simp)
    rcases hd with hnone | ⟨st1, pool, heq, hfr1, hab1, hp1⟩
    · unfold stepD
      rw [hnone]
      exact ⟨st, Or.inl rfl, hinv, rfl, fun k hk => UfAbove_mono hab (Nat.le_of_lt hk)⟩
    · unfold stepD
      rw [heq]
      dsimp only
      have hinv1 : StInv st1 := StInv_of_FrameE hfr1 hinv
      set st2 : FLState := (if pool.length ≠ 0 then
        ({ st1 with types := upd st1.types w BB_REDUCIBLE }) else st1) with hst2
      have hfr2 : FrameE st1 st2 := by
        rw [hst2]
        by_cases hl : pool.length ≠ 0
        · rw [if_pos hl]
          exact ⟨rfl, rfl, rfl, rfl, rfl, rfl, rfl, rfl⟩
        · rw [if_neg hl]
          exact frameE_refl st1
      have hab2 : UfAbove st2.ufParent w := by
        rw [hst2]
        by_cases hl : pool.length ≠ 0
        · rw [if_pos hl]
          exact hab1
        · rw [if_neg hl]
          exact hab1
      have hinv2 : StInv st2 := StInv_of_FrameE hfr2 hinv1
      have hwl := workLoop_spec w (pool.length + st2.size + 1) st2 pool pool hab2 hp1
      rcases hwl with ⟨st3, heq3, hfr3, hab3⟩ | ⟨st3, pool3, heq3, hfr3, hab3, hp3⟩
      · rw [heq3]
        refine ⟨st3, Or.inl rfl, StInv_of_FrameE hfr3 hinv2, ?_, ?_⟩
        · rw [hfr3.2.1, hfr2.2.1, hfr1.2.1]
        · exact fun k hk => UfAbove_mono hab3 (Nat.le_of_lt hk)
      · rw [heq3]
        have hcw := collapseW_spec st3 w nodeW pool3 hp3 (StInv_of_FrameE hfr3 hinv2)
        refine ⟨collapseW st3 w nodeW pool3, Or.inr rfl, hcw.1, ?_, ?_⟩
        · rw [hcw.2.1, hfr3.2.1, hfr2.2.1, hfr1.2.1]
        · intro k hk
          exact hcw.2.2 k hk (UfAbove_mono hab3 (Nat.le_of_lt hk))

theorem foldl_preserve {α β : Type} (P : α → Prop) (f : α → β → α) :
    ∀ (l : List β) (a : α), P a → (∀ x b, P x → P (f x b)) → P (l.foldl f a) := by
  intro l
  induction l with
  | nil => intro a h0 _; exact h0
  | cons b l ih =>
    intro a h0 hstep
    exact ih (f a b) (hstep a b h0) hstep

/-- The facts about a `stepB` result needed by the main pass: `stepB` only
classifies edges (touching `types`, `backPreds`, `nonBackPreds`), and every
backedge source it records at header `w` has DFS number at least `w`. -/
theorem stepB_spec (g : CFG) (st : FLState)
    (hbp : ∀ (w : Nat) (v : Nat), v ∈ st.backPreds w → w ≤ v) :
    (stepB g st).lsg = st.lsg ∧ (stepB g st).ufLoop = st.ufLoop ∧
    (stepB g st).ufParent = st.ufParent ∧ (stepB g st).size = st.size ∧
    (∀ (w : Nat) (v : Nat), v ∈ (stepB g st).backPreds w → w ≤ v) := by
  unfold stepB
  refine foldl_preserve
    (fun x : FLState => x.lsg = st.lsg ∧ x.ufLoop = st.ufLoop ∧ x.ufParent = st.ufParent ∧
      x.size = st.size ∧ ∀ (w : Nat) (v : Nat), v ∈ x.backPreds w → w ≤ v)
    _ (List.range st.size) st ⟨rfl, rfl, rfl, rfl, hbp⟩ ?_
  intro x w hx
  dsimp only
  cases hbbx : x.bbOf w with
  | none =>
    exact ⟨hx.1, hx.2.1, hx.2.2.1, hx.2.2.2.1, hx.2.2.2.2⟩
  | some nodeW =>
    refine foldl_preserve
      (fun y : FLState => y.lsg = st.lsg ∧ y.ufLoop = st.ufLoop ∧ y.ufParent = st.ufParent ∧
        y.size = st.size ∧ ∀ (w2 : Nat) (v : Nat), v ∈ y.backPreds w2 → w2 ≤ v)
      _ (g.inEdges nodeW.name) x hx ?_
    intro y nodeV hy
    dsimp only
    cases hnum : y.numbers nodeV.name with
    | none => exact hy
    | some v =>
      dsimp only
      by_cases hanc : isAncestor w v y.last = true
      · rw [if_pos hanc]
        refine ⟨hy.1, hy.2.1, hy.2.2.1, hy.2.2.2.1, ?_⟩
        intro w2 v2 hv2
        simp only [upd] at hv2
        by_cases hw2 : w2 = w
        · rw [if_pos hw2] at hv2
          rcases List.mem_append.mp hv2 with hcase | hcase
          · exact hy.2.2.2.2 w2 v2 (hw2 ▸ hcase)
          · rw [List.mem_singleton.mp hcase]
            have h2 : w ≤ v ∧ v ≤ y.last w := by simpa [isAncestor] using hanc
            exact hw2 ▸ h2.1
        · rw [if_neg hw2] at hv2
          exact hy.2.2.2.2 w2 v2 hv2
      · rw [if_neg hanc]
        exact ⟨hy.1, hy.2.1, hy.2.2.1, hy.2.2.2.1, hy.2.2.2.2⟩

theorem outerLoop_spec :
    ∀ (ws : List Nat) (st : FLState),
      StInv st → List.Pairwise (fun a b => b < a) ws →
      (∀ w ∈ ws, UfAbove st.ufParent w) →
      (∀ (w : Nat) (v : Nat), v ∈ st.backPreds w → w ≤ v) →
      ∃ st1, (outerLoop ws st = .abort st1 ∨ outerLoop ws st = .done st1) ∧ StInv st1 := by
  intro ws
  induction ws with
  | nil =>
    intro st hinv _ _ _
    exact ⟨st, Or.inr rfl, hinv⟩
  | cons w rest ih =>
    intro st hinv hpw hub hbp
    have hp := processW_spec st w hinv (hub w (List.mem_cons_self w rest)) (hbp w)
    obtain ⟨st1, hcase, hinv1, hbp1, hab1⟩ := hp
    rcases hcase with habort | hdone
    · refine ⟨st1, Or.inl ?_, hinv1⟩
      simp only [outerLoop, habort]
    · obtain ⟨hhead, htail⟩ := List.pairwise_cons.mp hpw
      have hub1 : ∀ w2 ∈ rest, UfAbove st1.ufParent w2 :=
        fun w2 hw2 => hab1 w2 (hhead w2 hw2)
      have hbp2 : ∀ (w2 : Nat) (v : Nat), v ∈ st1.backPreds w2 → w2 ≤ v := by
        rw [hbp1]
        exact hbp
      obtain ⟨st2, hcase2, hinv2⟩ := ih st1 hinv1 htail hub1 hbp2
      refine ⟨st2, ?_, hinv2⟩
      simp only [outerLoop, hdone]
      exact hcase2

theorem initFL_spec (g : CFG) (lsg : LSG) (dst : DfsState) :
    (initFL g lsg dst).lsg = lsg ∧ (initFL g lsg dst).ufLoop = (fun _ => none) ∧
    (initFL g lsg dst).ufParent = (fun n => n) ∧
    (∀ (w : Nat) (v : Nat), v ∈ (initFL g lsg dst).backPreds w → w ≤ v) := by
  unfold initFL
  have := stepB_spec g
    { size := g.numNodes,
      nonBackPreds := fun _ => [], backPreds := fun _ => [],
      headerA := fun _ => 0, types := fun _ => BB_NONHEADER,
      numbers := dst.numbers, last := dst.last, bbOf := dst.bbOf,
      ufParent := fun n => n, ufLoop := fun _ => none, lsg := lsg }
    (by intro w v hv; simp at hv)
  exact ⟨this.1, this.2.1, this.2.2.1, this.2.2.2.2⟩

/-- The forest produced by any `findLoops` run against a fresh forest is
structurally well-formed. -/
theorem findLoops_forestInv (g : CFG) : ForestInv (findLoopsSt g LSG.init).2 := by
  unfold findLoopsSt
  cases hs : g.startNode with
  | none => exact forestInv_init
  | some start =>
    dsimp only
    cases hdfs : dfsNode g g.numNodes start dfsInit 0 with
    | none => exact forestInv_init
    | some pr =>
      obtain ⟨dst, k⟩ := pr
      dsimp only
      obtain ⟨hl, hu, hp, hbp⟩ := initFL_spec g LSG.init dst
      have hinv0 : StInv (initFL g LSG.init dst) := by
        constructor
        · rw [hl]
          exact forestInv_init
        · intro n j hj
          rw [hu] at hj
          cases hj
      have hpw : List.Pairwise (fun a b => b < a) (List.range g.numNodes).reverse := by
        rw [List.pairwise_reverse]
        exact List.pairwise_lt_range g.numNodes
      have hub : ∀ w ∈ (List.range g.numNodes).reverse,
          UfAbove (initFL g LSG.init dst).ufParent w := by
        intro w _
        rw [hp]
        intro n
        exact Or.inl rfl
      obtain ⟨st1, hcase, hinv1⟩ :=
        outerLoop_spec (List.range g.numNodes).reverse (initFL g LSG.init dst)
          hinv0 hpw hub hbp
      unfold finishLoops
      rcases hcase with hc | hc
      · rw [hc]
        exact hinv1.forest
      · rw [hc]
        exact hinv1.forest

/-- One parent-link step in the forest: `b` is the parent of `a`. -/
def parentRel (s : LSG) (a b : Nat) : Prop :=
  ∃ l : SimpleLoop, s.arena[a]? = some l ∧ l.parent = some b

/-- Claim C5 as stated: every stored loop other than the root has a parent
and reaches the root by following parent links. -/
def claimC5 (s : LSG) : Prop :=
  ∀ i ∈ s.loops, i ≠ s.root →
    (∃ (l : SimpleLoop) (p : Nat), s.arena[i]? = some l ∧ l.parent = some p) ∧
    Relation.ReflTransGen (parentRel s) i s.root

/-- C5 counterexample: on the self-loop graph the discovered loop (stored,
not the root) is left with **no** parent — `findLoops` never attaches
top-level loops to the root. -/
theorem c5_top_level_loop_has_no_parent :
    ¬ claimC5 (findLoopsSt gAA LSG.init).2 := by
  intro h
  obtain ⟨⟨l, p, hl, hp⟩, _⟩ := h 1 (by decide) (by decide)
  have hmap : ((findLoopsSt gAA LSG.init).2.arena[1]?.map (fun l => l.parent)) = some none := by
    decide
  rw [hl] at hmap
  have hpn : l.parent = none := by simpa using hmap
  rw [hpn] at hp
  cases hp

/-- C5 (amended): parent links always point from an earlier-created loop
to a strictly later-created one inside the arena, the root (index 0) never
has a parent and is never anyone's parent target... -/
theorem c5_amended_parent_links (g : CFG) :
    (∀ (i p : Nat) (l : SimpleLoop),
        (findLoopsSt g LSG.init).2.arena[i]? = some l → l.parent = some p →
        i < p ∧ p < (findLoopsSt g LSG.init).2.arena.length) ∧
    (∀ l : SimpleLoop, (findLoopsSt g LSG.init).2.arena[0]? = some l → l.parent = none) ∧
    (∀ (i : Nat) (l : SimpleLoop), (findLoopsSt g LSG.init).2.arena[i]? = some l →
        l.parent ≠ some (findLoopsSt g LSG.init).2.root) ∧
    (∀ i : Nat, ¬ Relation.TransGen (parentRel (findLoopsSt g LSG.init).2) i i) := by
  have hfi := findLoops_forestInv g
  have hlt : ∀ a b : Nat, Relation.TransGen (parentRel (findLoopsSt g LSG.init).2) a b →
      a < b := by
    intro a b htg
    induction htg with
    | single h2 =>
      obtain ⟨l, hl, hp⟩ := h2
      exact (hfi.parentGt _ l _ hl hp).1
    | tail _ h3 ih =>
      obtain ⟨l, hl, hp⟩ := h3
      exact lt_trans ih (hfi.parentGt _ l _ hl hp).1
  refine ⟨?_, hfi.rootNoParent, ?_, ?_⟩
  · intro i p l hl hp
    exact hfi.parentGt i l p hl hp
  · intro i l hl hp
    rw [hfi.rootIdx] at hp
    have := (hfi.parentGt i l 0 hl hp).1
    omega
  · intro i htg
    exact absurd (hlt i i htg) (lt_irrefl i)

/-- Witness for the amended C5 on the two-level nest `g4`: the inner loop
(arena index 1) has the outer loop (index 2) as parent, the root has no
parent, and no loop is its own ancestor. -/
theorem c5_amended_parent_links_witness :
    (1 < 2 ∧ 2 < (findLoopsSt g4 LSG.init).2.arena.length) ∧
    ((findLoopsSt g4 LSG.init).2.arena.getD 0 { counter := 0 }).parent = none ∧
    ¬ Relation.TransGen (parentRel (findLoopsSt g4 LSG.init).2) 1 1 := by
  refine ⟨?_, ?_, (c5_amended_parent_links g4).2.2.2 1⟩
  · exact (c5_amended_parent_links g4).1 1 2
      ((findLoopsSt g4 LSG.init).2.arena.getD 1 { counter := 0 }) (by decide) (by decide)
  · exact (c5_amended_parent_links g4).2.1
      ((findLoopsSt g4 LSG.init).2.arena.getD 0 { counter := 0 }) (by decide)

/-- C10: every non-root loop record in any produced forest has its header
stored as the first member block, so its name enters the loop's checksum
twice: once at the header step and once as the head of the member fold. -/
theorem c10_header_is_first_member (g : CFG) (i : Nat) (l : SimpleLoop)
    (h1 : 1 ≤ i) (hl : (findLoopsSt g LSG.init).2.arena[i]? = some l) :
    ∃ (h : BasicBlock) (rest : List BasicBlock),
      l.header = some h ∧ l.basicBlocks = h :: rest ∧
      ∃ a, checksumAt (findLoopsSt g LSG.init).2.arena i =
        List.foldl mix (mix (mix a h.name) h.name)
          (rest.map (fun b => b.name) ++
           l.children.map (fun c => checksumAux (findLoopsSt g LSG.init).2.arena i c)) := by
  obtain ⟨h, rest, hh, hbb, _⟩ := (findLoops_forestInv g).headerMem i l hl h1
  have hmain : checksumAt (findLoopsSt g LSG.init).2.arena i =
      List.foldl (fun acc c => mix acc (checksumAux (findLoopsSt g LSG.init).2.arena i c))
        l.checksumBase l.children := by
    unfold checksumAt
    simp only [checksumAux]
    rw [hl]
  refine ⟨h, rest, hh, hbb,
    mix (mix (mix l.counter (if l.isRoot then 1 else 0)) (if l.isReducible then 1 else 0))
      l.nestingLevel |> (mix · l.depthLevel), ?_⟩
  rw [hmain, List.foldl_append]
  have hbase : l.checksumBase =
      List.foldl mix
        (mix (mix (mix (mix (mix l.counter (if l.isRoot then 1 else 0))
          (if l.isReducible then 1 else 0)) l.nestingLevel) l.depthLevel) h.name)
        ((h :: rest).map (fun b => b.name)) := by
    simp [SimpleLoop.checksumBase, hh, hbb, List.foldl_map]
  rw [hbase]
  simp only [List.map_cons, List.foldl_cons]
  rw [List.foldl_map, List.foldl_map]

/-- Witness for C10 on the self-loop graph: the loop at arena index 1 has
header `A` as its first (and only) member. -/
theorem c10_header_is_first_member_witness :
    ∃ (h : BasicBlock) (rest : List BasicBlock),
      ((findLoopsSt gAA LSG.init).2.arena.getD 1 { counter := 0 }).header = some h ∧
      ((findLoopsSt gAA LSG.init).2.arena.getD 1 { counter := 0 }).basicBlocks = h :: rest ∧
      ∃ a, checksumAt (findLoopsSt gAA LSG.init).2.arena 1 =
        List.foldl mix (mix (mix a h.name) h.name)
          (rest.map (fun b => b.name) ++
           ((findLoopsSt gAA LSG.init).2.arena.getD 1 { counter := 0 }).children.map
             (fun c => checksumAux (findLoopsSt gAA LSG.init).2.arena 1 c)) :=
  c10_header_is_first_member gAA 1
    ((findLoopsSt gAA LSG.init).2.arena.getD 1 { counter := 0 }) (by decide) (by decide)

/-- C3 (amended): the forest stores the root **first** (`loops[0]` is the
root), and the forest checksum seeds with the loop count, folds the stored
loops' checksums in storage order (root first, then discovery order) and
finally mixes the root's checksum once more. -/
theorem c3_amended_forest_checksum_root_first (g : CFG) :
    ∃ rest, (findLoopsSt g LSG.init).2.loops = (findLoopsSt g LSG.init).2.root :: rest ∧
      ((findLoopsSt g LSG.init).2).checksum =
        mix (List.foldl (fun acc e => mix acc (checksumAt (findLoopsSt g LSG.init).2.arena e))
              ((findLoopsSt g LSG.init).2.loops.length)
              ((findLoopsSt g LSG.init).2.root :: rest))
          (checksumAt (findLoopsSt g LSG.init).2.arena (findLoopsSt g LSG.init).2.root) := by
  have hfi := findLoops_forestInv g
  obtain ⟨rest, hrest⟩ := hfi.loopsHead
  refine ⟨rest, ?_, ?_⟩
  · rw [hrest, hfi.rootIdx]
  · rw [LSG.checksum]
    rw [show (findLoopsSt g LSG.init).2.root :: rest = (findLoopsSt g LSG.init).2.loops from by
      rw [hrest, hfi.rootIdx]]

/-! ## C4: correctness of the DFS numbering pass -/

/-- One ghost spanning-tree step: `a` is the recorded DFS-tree parent of
`b`. -/
def parStep (st : DfsState) (a b : Nat) : Prop :=
  st.par b = some a

/-- A name is reachable from `s` along stored out-edges. -/
def ReachableName (g : CFG) (s n : Nat) : Prop :=
  Relation.ReflTransGen (fun a b => ∃ t ∈ g.outEdges a, t.name = b) s n

/-- Block names appearing in edge vectors stay below the node count. -/
def WfG (g : CFG) : Prop :=
  ∀ (n : Nat) (t : BasicBlock), t ∈ g.outEdges n → t.name < g.numNodes

/-- Postcondition of one out-edge-list traversal `dfsList f nodeName l st
lastid = some (st2, ret)` (the owning node `nodeName` is already numbered
and `lastid` bounds all assigned numbers). -/
structure DfsListPost (g : CFG) (l : List BasicBlock) (nodeName : Nat) (st : DfsState)
    (lastid : Nat) (st2 : DfsState) (ret : Nat) : Prop where
  retGe : lastid ≤ ret
  oldNum : ∀ m, (st.numbers m).isSome → st2.numbers m = st.numbers m
  newWin : ∀ m k, st.numbers m = none → st2.numbers m = some k → lastid < k ∧ k ≤ ret
  winSurj : ∀ k, lastid < k → k ≤ ret → ∃ m, st.numbers m = none ∧ st2.numbers m = some k
  lastFrame : ∀ j, j ≤ lastid ∨ ret < j → st2.last j = st.last j
  parNew : ∀ m, st2.par m ≠ st.par m → st.numbers m = none ∧ (st2.numbers m).isSome
  deepEdge : ∀ m, st.numbers m = none → (st2.numbers m).isSome → st2.par m ≠ some nodeName →
    ∃ p km kp, st2.par m = some p ∧ st2.numbers m = some km ∧ st2.numbers p = some kp ∧
      kp < km ∧ km ≤ st2.last kp ∧ st2.last km ≤ st2.last kp ∧ st.numbers p = none
  listClosed : ∀ t, t ∈ l → (st2.numbers t.name).isSome
  freshClosed : ∀ m, st.numbers m = none → (st2.numbers m).isSome →
    ∀ t, t ∈ g.outEdges m → (st2.numbers t.name).isSome
  selfIv : ∀ m k, st.numbers m = none → st2.numbers m = some k →
    k ≤ st2.last k ∧ st2.last k ≤ ret
  achieverAll : ∀ m km, st.numbers m = none → st2.numbers m = some km →
    ∃ m2, Relation.ReflTransGen (parStep st2) m m2 ∧ st2.numbers m2 = some (st2.last km)
  retAch : ret = lastid ∨ ∃ m, Relation.ReflTransGen (parStep st2) nodeName m ∧
    st2.numbers m = some ret
  unvisPar : ∀ m, st2.numbers m = none → st2.par m = none
  inj : ∀ m m2 k, st2.numbers m = some k → st2.numbers m2 = some k → m = m2
  ivComp : ∀ m km, st.numbers m = none → st2.numbers m = some km →
    ∀ k, km ≤ k → k ≤ st2.last km →
      ∃ v, st2.numbers v = some k ∧ Relation.ReflTransGen (parStep st2) m v

/-- Postcondition of one node visit `dfsNode g fuel node st cur = some
(st2, ret)`. -/
structure DfsNodePost (g : CFG) (node : BasicBlock) (st : DfsState) (cur : Nat)
    (st2 : DfsState) (ret : Nat) : Prop where
  retGe : cur ≤ ret
  numNode : st2.numbers node.name = some cur
  oldNum : ∀ m, (st.numbers m).isSome → st2.numbers m = st.numbers m
  newWin : ∀ m k, st.numbers m = none → st2.numbers m = some k → cur ≤ k ∧ k ≤ ret
  winSurj : ∀ k, cur ≤ k → k ≤ ret → ∃ m, st.numbers m = none ∧ st2.numbers m = some k
  lastFrame : ∀ j, j < cur ∨ ret < j → st2.last j = st.last j
  lastNode : st2.last cur = ret
  parNode : st2.par node.name = st.par node.name
  parNew : ∀ m, st2.par m ≠ st.par m →
    st.numbers m = none ∧ (st2.numbers m).isSome ∧ m ≠ node.name
  edge : ∀ m, st.numbers m = none → (st2.numbers m).isSome → m ≠ node.name →
    ∃ p km kp, st2.par m = some p ∧ st2.numbers m = some km ∧ st2.numbers p = some kp ∧
      cur ≤ kp ∧ kp < km ∧ km ≤ st2.last kp ∧ st2.last km ≤ st2.last kp
  closed : ∀ m, (st.numbers m = none ∧ (st2.numbers m).isSome) ∨ m = node.name →
    ∀ t, t ∈ g.outEdges m → (st2.numbers t.name).isSome
  selfIv : ∀ m k, st.numbers m = none → st2.numbers m = some k →
    k ≤ st2.last k ∧ st2.last k ≤ ret
  achieverAll : ∀ m km, st.numbers m = none → st2.numbers m = some km →
    ∃ m2, Relation.ReflTransGen (parStep st2) m m2 ∧ st2.numbers m2 = some (st2.last km)
  unvisPar : ∀ m, m ≠ node.name → st2.numbers m = none → st2.par m = none
  inj : ∀ m m2 k, st2.numbers m = some k → st2.numbers m2 = some k → m = m2
  ivComp : ∀ m km, st.numbers m = none → st2.numbers m = some km →
    ∀ k, km ≤ k → k ≤ st2.last km →
      ∃ v, st2.numbers v = some k ∧ Relation.ReflTransGen (parStep st2) m v

/-- Full node-level specification at a given fuel. -/
def NodeSpec (g : CFG) (fuel : Nat) : Prop :=
  ∀ (node : BasicBlock) (st : DfsState) (cur : Nat) (st2 : DfsState) (ret : Nat),
    dfsNode g fuel node st cur = some (st2, ret) →
    st.numbers node.name = none →
    (∀ m k, st.numbers m = some k → k < cur) →
    (∀ m, m ≠ node.name → st.numbers m = none → st.par m = none) →
    (∀ m m2 k, st.numbers m = some k → st.numbers m2 = some k → m = m2) →
    DfsNodePost g node st cur st2 ret

/-- Full list-level specification at a given fuel. -/
def ListSpec (g : CFG) (fuel : Nat) : Prop :=
  ∀ (l : List BasicBlock) (nodeName : Nat) (st : DfsState) (lastid : Nat)
    (st2 : DfsState) (ret : Nat),
    dfsList (dfsNode g fuel) nodeName l st lastid = some (st2, ret) →
    (∀ m k, st.numbers m = some k → k ≤ lastid) →
    (∀ m, st.numbers m = none → st.par m = none) →
    (st.numbers nodeName).isSome →
    (∀ m m2 k, st.numbers m = some k → st.numbers m2 = some k → m = m2) →
    DfsListPost g l nodeName st lastid st2 ret

theorem nodeSpec_zero (g : CFG) : NodeSpec g 0 := by
  intro node st cur st2 ret h
  cases h

theorem listPost_cons (g : CFG) (t : BasicBlock) (rest : List BasicBlock) (nodeName : Nat)
    (st stN st2 : DfsState) (lastid retN ret : Nat)
    (htun : st.numbers t.name = none)
    (hb : ∀ m k, st.numbers m = some k → k ≤ lastid)
    (hN : DfsNodePost g t { st with par := upd st.par t.name (some nodeName) }
      (lastid + 1) stN retN)
    (hL : DfsListPost g rest nodeName stN retN st2 ret) :
    DfsListPost g (t :: rest) nodeName st lastid st2 ret := by
  have hret1 : lastid + 1 ≤ retN := hN.retGe
  have hret2 : retN ≤ ret := hL.retGe
  have htN : stN.numbers t.name = some (lastid + 1) := hN.numNode
  have htS2 : st2.numbers t.name = some (lastid + 1) := by
    rw [hL.oldNum t.name (by rw [htN]; rfl), htN]
  -- fresh in stN implies fresh in st
  have hfreshNS : ∀ m, stN.numbers m = none → st.numbers m = none := by
    intro m hm
    cases hms : st.numbers m with
    | none => rfl
    | some k =>
      have := hN.oldNum m (by rw [hms]; rfl)
      rw [hm, hms] at this
      cases this
  -- a node-phase parent is fresh in st (its number exceeds lastid)
  have hParentFresh : ∀ p kp, stN.numbers p = some kp → lastid + 1 ≤ kp →
      st.numbers p = none := by
    intro p kp hp hkp
    cases hms : st.numbers p with
    | none => rfl
    | some k =>
      have heq := hN.oldNum p (by rw [hms]; rfl)
      rw [hp, hms] at heq
      cases heq
      have := hb p kp hms
      omega
  -- the node call's parents are numbered in its window
  have hNodeWin : ∀ m k, st.numbers m = none → stN.numbers m = some k →
      lastid + 1 ≤ k ∧ k ≤ retN := hN.newWin
  -- the tree edge nodeName → t survives to the end
  have hParTN : stN.par t.name = some nodeName := by
    rw [hN.parNode]
    simp [upd]
  have hParTS2 : st2.par t.name = some nodeName := by
    by_cases hch : st2.par t.name = stN.par t.name
    · rw [hch, hParTN]
    · have := (hL.parNew t.name hch).1
      rw [htN] at this
      cases this
  -- visited-in-stN nodes keep their parent pointer in st2
  have hParKeep : ∀ m, (stN.numbers m).isSome → st2.par m = stN.par m := by
    intro m hm
    by_cases hch : st2.par m = stN.par m
    · exact hch
    · have := (hL.parNew m hch).1
      rw [this] at hm
      cases hm
  -- parent steps recorded by the node phase survive to st2
  have hStepLift : ∀ a b, parStep stN a b → parStep st2 a b := by
    intro a b hstep
    unfold parStep at hstep ⊢
    have hbv : (stN.numbers b).isSome := by
      by_cases hbt : b = t.name
      · rw [hbt, htN]; rfl
      · cases hbn : stN.numbers b with
        | some k => rfl
        | none =>
          have := hN.unvisPar b hbt hbn
          rw [this] at hstep
          cases hstep
    rw [hParKeep b hbv]
    exact hstep
  constructor
  · omega
  · intro m hm
    have h1 := hN.oldNum m hm
    have h2 := hL.oldNum m (by rw [h1]; exact hm)
    rw [h2, h1]
  · intro m k hmf hm2
    cases hmN : stN.numbers m with
    | some k0 =>
      have heq := hL.oldNum m (by rw [hmN]; rfl)
      rw [hm2, hmN] at heq
      injection heq with heq
      subst heq
      have hw := hN.newWin m k hmf hmN
      omega
    | none =>
      have hw := hL.newWin m k hmN hm2
      omega
  · intro k hk1 hk2
    by_cases hk : k ≤ retN
    · obtain ⟨m, hmf, hmN⟩ := hN.winSurj k (by omega) hk
      exact ⟨m, hmf, by rw [hL.oldNum m (by rw [hmN]; rfl), hmN]⟩
    · obtain ⟨m, hmf, hm2⟩ := hL.winSurj k (by omega) hk2
      exact ⟨m, hfreshNS m hmf, hm2⟩
  · intro j hj
    exact (hL.lastFrame j (by omega)).trans (hN.lastFrame j (by omega))
  · intro m hch
    by_cases h2 : st2.par m = stN.par m
    · rw [h2] at hch
      by_cases h3 : stN.par m = upd st.par t.name (some nodeName) m
      · rw [h3] at hch
        by_cases hmt : m = t.name
        · subst hmt
          exact ⟨htun, by rw [htS2]; rfl⟩
        · exfalso; apply hch; simp [upd, hmt]
      · obtain ⟨hf, hs, _⟩ := hN.parNew m h3
        exact ⟨hf, by rw [hL.oldNum m hs]; exact hs⟩
    · obtain ⟨hf, hs⟩ := hL.parNew m h2
      exact ⟨hfreshNS m hf, hs⟩
  · intro m hmf hm2 hpar
    cases hmN : stN.numbers m with
    | some km0 =>
      by_cases hmt : m = t.name
      · exfalso
        apply hpar
        rw [hmt]
        exact hParTS2
      · obtain ⟨p, km, kp, hp, hkm, hkp, hcurkp, hkpkm, hkmlast, hlasts⟩ :=
          hN.edge m hmf (by rw [hmN]; rfl) hmt
        have hkmret : km ≤ retN := (hN.newWin m km hmf hkm).2
        have hpf : st.numbers p = none := hParentFresh p kp hkp hcurkp
        have hkpret : kp ≤ retN := (hN.newWin p kp hpf hkp).2
        have hfp : st2.last kp = stN.last kp := hL.lastFrame kp (Or.inl hkpret)
        have hfm : st2.last km = stN.last km := hL.lastFrame km (Or.inl hkmret)
        refine ⟨p, km, kp, ?_, ?_, ?_, hkpkm, ?_, ?_, hpf⟩
        · rw [hParKeep m (by rw [hkm]; rfl)]
          exact hp
        · rw [hL.oldNum m (by rw [hkm]; rfl)]
          exact hkm
        · rw [hL.oldNum p (by rw [hkp]; rfl)]
          exact hkp
        · rw [hfp]
          exact hkmlast
        · rw [hfp, hfm]
          exact hlasts
    | none =>
      obtain ⟨p, km, kp, hp, hkm, hkp, hlt, hiv1, hiv2, hpf⟩ :=
        hL.deepEdge m hmN hm2 hpar
      exact ⟨p, km, kp, hp, hkm, hkp, hlt, hiv1, hiv2, hfreshNS p hpf⟩
  · intro t2 ht2
    rcases List.mem_cons.mp ht2 with h | h
    · rw [h, htS2]; rfl
    · exact hL.listClosed t2 h
  · intro m hmf hm2 t2 ht2
    cases hmN : stN.numbers m with
    | some k0 =>
      have hc := hN.closed m (Or.inl ⟨hmf, by rw [hmN]; rfl⟩) t2 ht2
      rw [hL.oldNum t2.name hc]
      exact hc
    | none =>
      exact hL.freshClosed m hmN hm2 t2 ht2
  · intro m k hmf hm2
    cases hmN : stN.numbers m with
    | some k0 =>
      have heq := hL.oldNum m (by rw [hmN]; rfl)
      rw [hm2, hmN] at heq
      injection heq with heq
      subst heq
      obtain ⟨h1, h2⟩ := hN.selfIv m k hmf hmN
      have hkret : k ≤ retN := (hN.newWin m k hmf hmN).2
      rw [hL.lastFrame k (Or.inl hkret)]
      exact ⟨h1, h2.trans hret2⟩
    | none =>
      exact hL.selfIv m k hmN hm2
  · intro m km hmf hm2
    cases hmN : stN.numbers m with
    | some km0 =>
      have heq := hL.oldNum m (by rw [hmN]; rfl)
      rw [hm2, hmN] at heq
      injection heq with heq
      subst heq
      obtain ⟨m2, hchain, hm2n⟩ := hN.achieverAll m km hmf hmN
      have hkret : km ≤ retN := (hN.newWin m km hmf hmN).2
      refine ⟨m2, Relation.ReflTransGen.mono hStepLift hchain, ?_⟩
      rw [hL.lastFrame km (Or.inl hkret)]
      rw [hL.oldNum m2 (by rw [hm2n]; rfl), hm2n]
    | none =>
      exact hL.achieverAll m km hmN hm2
  · rcases hL.retAch with h | h
    · obtain ⟨m2, hchain, hm2n⟩ := hN.achieverAll t.name (lastid + 1) htun htN
      refine Or.inr ⟨m2, Relation.ReflTransGen.head hParTS2
        (Relation.ReflTransGen.mono hStepLift hchain), ?_⟩
      rw [hL.oldNum m2 (by rw [hm2n]; rfl), hm2n, hN.lastNode, h]
    · exact Or.inr h
  · exact hL.unvisPar
  · exact hL.inj
  · intro m km hmf hm2 k hk1 hk2
    cases hmN : stN.numbers m with
    | some km0 =>
      have heq := hL.oldNum m (by rw [hmN]; rfl)
      rw [hm2, hmN] at heq
      injection heq with heq
      subst heq
      have hkret : km ≤ retN := (hN.newWin m km hmf hmN).2
      rw [hL.lastFrame km (Or.inl hkret)] at hk2
      obtain ⟨v, hv, hchain⟩ := hN.ivComp m km hmf hmN k hk1 hk2
      refine ⟨v, ?_, Relation.ReflTransGen.mono hStepLift hchain⟩
      rw [hL.oldNum v (by rw [hv]; rfl), hv]
    | none =>
      exact hL.ivComp m km hmN hm2 k hk1 hk2

theorem listSpec_of_nodeSpec (g : CFG) (fuel : Nat) (hn : NodeSpec g fuel) :
    ListSpec g fuel := by
  intro l
  induction l with
  | nil =>
    intro nodeName st lastid st2 ret h hb hup hnn hinj
    unfold dfsList at h
    injection h with h
    injection h with h1 h2
    subst h1
    subst h2
    constructor
    · exact Nat.le_refl _
    · intro m _
      rfl
    · intro m k hmf hm2
      rw [hmf] at hm2
      cases hm2
    · intro k hk1 hk2
      exact absurd hk2 (by omega)
    · intro j _
      rfl
    · intro m hch
      exact absurd rfl hch
    · intro m hmf hm2
      rw [hmf] at hm2
      cases hm2
    · intro t ht
      cases ht
    · intro m hmf hm2
      rw [hmf] at hm2
      cases hm2
    · intro m k hmf hm2
      rw [hmf] at hm2
      cases hm2
    · intro m km hmf hm2
      rw [hmf] at hm2
      cases hm2
    · exact Or.inl rfl
    · exact hup
    · exact hinj
    · intro m km hmf hm2
      rw [hmf] at hm2
      cases hm2
  | cons t rest ih =>
    intro nodeName st lastid st2 ret h hb hup hnn hinj
    unfold dfsList at h
    cases htn : st.numbers t.name with
    | some k =>
      rw [htn] at h
      dsimp only at h
      have hP := ih nodeName st lastid st2 ret h hb hup hnn hinj
      refine ⟨hP.retGe, hP.oldNum, hP.newWin, hP.winSurj, hP.lastFrame, hP.parNew,
        hP.deepEdge, ?_, hP.freshClosed, hP.selfIv, hP.achieverAll, hP.retAch,
        hP.unvisPar, hP.inj, hP.ivComp⟩
      intro t2 ht2
      rcases List.mem_cons.mp ht2 with heq | hm
      · rw [heq, hP.oldNum t.name (by rw [htn]; rfl), htn]
        rfl
      · exact hP.listClosed t2 hm
    | none =>
      rw [htn] at h
      dsimp only at h
      cases hcall : dfsNode g fuel t
          { st with par := upd st.par t.name (some nodeName) } (lastid + 1) with
      | none =>
        rw [hcall] at h
        cases h
      | some pr =>
        obtain ⟨stN, retN⟩ := pr
        rw [hcall] at h
        dsimp only at h
        have hNpost := hn t { st with par := upd st.par t.name (some nodeName) }
          (lastid + 1) stN retN hcall htn
          (fun m k hm => Nat.lt_succ_of_le (hb m k hm))
          (fun m hmne hmf => by simp only [upd]; rw [if_neg hmne]; exact hup m hmf)
          hinj
        have hbN : ∀ m k, stN.numbers m = some k → k ≤ retN := by
          intro m k hm
          cases hms : st.numbers m with
          | some k0 =>
            have heq := hNpost.oldNum m (by rw [hms]; rfl)
            rw [hm, hms] at heq
            injection heq with heq
            subst heq
            have := hb m k hms
            have := hNpost.retGe
            omega
          | none =>
            exact (hNpost.newWin m k hms hm).2
        have hupN : ∀ m, stN.numbers m = none → stN.par m = none := by
          intro m hmf
          by_cases hmt : m = t.name
          · rw [hmt, hNpost.numNode] at hmf
            cases hmf
          · exact hNpost.unvisPar m hmt hmf
        have hnnN : (stN.numbers nodeName).isSome := by
          rw [hNpost.oldNum nodeName hnn]
          exact hnn
        have hLpost := ih nodeName stN retN st2 ret h hbN hupN hnnN hNpost.inj
        exact listPost_cons g t rest nodeName st stN st2 lastid retN ret htn hb
          hNpost hLpost

theorem nodePost_assemble (g : CFG) (node : BasicBlock) (st st1 st2 : DfsState)
    (cur lastid : Nat)
    (hnum1 : st1.numbers = upd st.numbers node.name (some cur))
    (hlast1 : st1.last = st.last)
    (hpar1 : st1.par = st.par)
    (hun : st.numbers node.name = none)
    (hL : DfsListPost g (g.outEdges node.name) node.name st1 cur st2 lastid) :
    DfsNodePost g node st cur
      { st2 with last := upd st2.last ((st2.numbers node.name).getD 0) lastid }
      lastid := by
  have hn1 : st1.numbers node.name = some cur := by
    rw [hnum1]; simp [upd]
  have hn2 : st2.numbers node.name = some cur := by
    rw [hL.oldNum node.name (by rw [hn1]; rfl), hn1]
  have hK : (st2.numbers node.name).getD 0 = cur := by
    rw [hn2]; rfl
  have hf1 : ∀ m, m ≠ node.name → st1.numbers m = st.numbers m := by
    intro m hm
    rw [hnum1]; simp [upd, hm]
  have hf1' : ∀ m, st1.numbers m = none → st.numbers m = none := by
    intro m hm
    by_cases hmt : m = node.name
    · rw [hmt, hn1] at hm; cases hm
    · rw [hf1 m hmt] at hm; exact hm
  have hfS : ∀ m, st.numbers m = none → m ≠ node.name → st1.numbers m = none := by
    intro m hm hmt
    rw [hf1 m hmt]; exact hm
  have hlastF : ∀ j, j ≠ cur →
      ({ st2 with last := upd st2.last ((st2.numbers node.name).getD 0) lastid }).last j
        = st2.last j := by
    intro j hj
    show upd st2.last ((st2.numbers node.name).getD 0) lastid j = st2.last j
    rw [hK]; simp [upd, hj]
  have hlastC :
      ({ st2 with last := upd st2.last ((st2.numbers node.name).getD 0) lastid }).last cur
        = lastid := by
    show upd st2.last ((st2.numbers node.name).getD 0) lastid cur = lastid
    rw [hK]; simp [upd]
  have hnewWin : ∀ m k, st.numbers m = none → st2.numbers m = some k →
      cur ≤ k ∧ k ≤ lastid := by
    intro m k hmf hm2
    by_cases hmt : m = node.name
    · rw [hmt, hn2] at hm2
      injection hm2 with hm2
      subst hm2
      exact ⟨Nat.le_refl _, hL.retGe⟩
    · have := hL.newWin m k (hfS m hmf hmt) hm2
      omega
  refine ⟨hL.retGe, hn2, ?_, hnewWin, ?_, ?_, hlastC, ?_, ?_, ?_, ?_, ?_, ?_, ?_, hL.inj,
    ?_⟩
  · intro m hm
    have hmt : m ≠ node.name := by
      intro e; rw [e, hun] at hm; cases hm
    show st2.numbers m = st.numbers m
    rw [hL.oldNum m (by rw [hf1 m hmt]; exact hm), hf1 m hmt]
  · intro k hk1 hk2
    rcases Nat.eq_or_lt_of_le hk1 with heq | hlt
    · refine ⟨node.name, hun, ?_⟩
      show st2.numbers node.name = some k
      rw [hn2, heq]
    · obtain ⟨m, hmf, hm2⟩ := hL.winSurj k hlt hk2
      exact ⟨m, hf1' m hmf, hm2⟩
  · intro j hj
    have hcl : cur ≤ lastid := hL.retGe
    have hjne : j ≠ cur := by omega
    rw [hlastF j hjne, hL.lastFrame j (by omega), hlast1]
  · show st2.par node.name = st.par node.name
    by_cases hch : st2.par node.name = st1.par node.name
    · rw [hch, hpar1]
    · have := (hL.parNew node.name hch).1
      rw [hn1] at this
      cases this
  · intro m hch
    have hch2 : st2.par m ≠ st1.par m := by
      rw [hpar1]; exact hch
    obtain ⟨hf, hs⟩ := hL.parNew m hch2
    have hmt : m ≠ node.name := by
      intro e; rw [e, hn1] at hf; cases hf
    exact ⟨hf1' m hf, hs, hmt⟩
  · intro m hmf hm2 hmt
    have hm2s : (st2.numbers m).isSome := hm2
    by_cases hpar : st2.par m = some node.name
    · obtain ⟨km, hkm⟩ := Option.isSome_iff_exists.mp hm2s
      have hw := hL.newWin m km (hfS m hmf hmt) hkm
      have hiv := hL.selfIv m km (hfS m hmf hmt) hkm
      have hkmne : km ≠ cur := by omega
      refine ⟨node.name, km, cur, hpar, hkm, hn2, Nat.le_refl _, hw.1, ?_, ?_⟩
      · rw [hlastC]; exact hw.2
      · rw [hlastC, hlastF km hkmne]; exact hiv.2
    · obtain ⟨p, km, kp, hp, hkm, hkp, hlt, hiv1, hiv2, hpf⟩ :=
        hL.deepEdge m (hfS m hmf hmt) hm2s hpar
      have hwp := hL.newWin p kp hpf hkp
      have hwm := hL.newWin m km (hfS m hmf hmt) hkm
      have hkpne : kp ≠ cur := by omega
      have hkmne : km ≠ cur := by omega
      refine ⟨p, km, kp, hp, hkm, hkp, by omega, hlt, ?_, ?_⟩
      · rw [hlastF kp hkpne]; exact hiv1
      · rw [hlastF kp hkpne, hlastF km hkmne]; exact hiv2
  · intro m hm t ht
    rcases hm with ⟨hmf, hms⟩ | heq
    · by_cases hmt : m = node.name
      · subst hmt
        exact hL.listClosed t ht
      · exact hL.freshClosed m (hfS m hmf hmt) hms t ht
    · subst heq
      exact hL.listClosed t ht
  · intro m k hmf hmk
    have hmk2 : st2.numbers m = some k := hmk
    by_cases hmt : m = node.name
    · subst hmt
      rw [hn2] at hmk2
      injection hmk2 with hmk2
      subst hmk2
      rw [hlastC]
      exact ⟨hL.retGe, Nat.le_refl _⟩
    · have hw := hL.newWin m k (hfS m hmf hmt) hmk2
      have hiv := hL.selfIv m k (hfS m hmf hmt) hmk2
      have hkne : k ≠ cur := by omega
      rw [hlastF k hkne]
      exact hiv
  · intro m km hmf hmk
    have hmk2 : st2.numbers m = some km := hmk
    by_cases hmt : m = node.name
    · subst hmt
      rw [hn2] at hmk2
      injection hmk2 with hmk2
      subst hmk2
      rcases hL.retAch with hre | ⟨m2, hchain, hm2⟩
      · refine ⟨node.name, Relation.ReflTransGen.refl, ?_⟩
        show st2.numbers node.name =
          some (({ st2 with
            last := upd st2.last ((st2.numbers node.name).getD 0) lastid }).last cur)
        rw [hlastC, hre, hn2]
      · refine ⟨m2, hchain, ?_⟩
        show st2.numbers m2 =
          some (({ st2 with
            last := upd st2.last ((st2.numbers node.name).getD 0) lastid }).last cur)
        rw [hlastC]
        exact hm2
    · obtain ⟨m2, hchain, hm2⟩ := hL.achieverAll m km (hfS m hmf hmt) hmk2
      have hw := hL.newWin m km (hfS m hmf hmt) hmk2
      have hkne : km ≠ cur := by omega
      refine ⟨m2, hchain, ?_⟩
      rw [hlastF km hkne]
      exact hm2
  · intro m _ hmf
    exact hL.unvisPar m hmf
  · intro m km hmf hmk k hk1 hk2
    have hmk2 : st2.numbers m = some km := hmk
    have descend : ∀ (k2 : Nat) m2, st1.numbers m2 = none → st2.numbers m2 = some k2 →
        Relation.ReflTransGen (parStep st2) node.name m2 := by
      intro k2
      induction k2 using Nat.strong_induction_on with
      | _ k2 ih =>
        intro m2 hm2f hm2k
        by_cases hpar : st2.par m2 = some node.name
        · exact Relation.ReflTransGen.single hpar
        · obtain ⟨p, km2, kp, hp, hkm, hkp, hlt, _, _, hpf⟩ :=
            hL.deepEdge m2 hm2f (by rw [hm2k]; rfl) hpar
          rw [hm2k] at hkm
          injection hkm with hkm
          subst hkm
          exact Relation.ReflTransGen.tail (ih kp hlt p hpf hkp) hp
    by_cases hmt : m = node.name
    · subst hmt
      rw [hn2] at hmk2
      injection hmk2 with hmk2
      subst hmk2
      rw [hlastC] at hk2
      rcases Nat.eq_or_lt_of_le hk1 with heq | hlt
      · refine ⟨node.name, ?_, Relation.ReflTransGen.refl⟩
        show st2.numbers node.name = some k
        rw [hn2, heq]
      · obtain ⟨v, hvf, hv⟩ := hL.winSurj k hlt hk2
        exact ⟨v, hv, descend k v hvf hv⟩
    · have hfm := hfS m hmf hmt
      have hw := hL.newWin m km hfm hmk2
      have hkne : km ≠ cur := by omega
      rw [hlastF km hkne] at hk2
      obtain ⟨v, hv, hchain⟩ := hL.ivComp m km hfm hmk2 k hk1 hk2
      exact ⟨v, hv, hchain⟩

theorem nodeSpec_succ (g : CFG) (fuel : Nat) (hl : ListSpec g fuel) :
    NodeSpec g (fuel + 1) := by
  intro node st cur stF ret h hun hb hup hinj
  unfold dfsNode at h
  dsimp only at h
  cases hcall : dfsList (dfsNode g fuel) node.name (g.outEdges node.name)
      { st with numbers := upd st.numbers node.name (some cur),
                bbOf := upd st.bbOf cur (some node) } cur with
  | none =>
    rw [hcall] at h
    cases h
  | some pr =>
    obtain ⟨st2, lastid⟩ := pr
    rw [hcall] at h
    dsimp only at h
    injection h with h
    injection h with h1 h2
    subst h2
    subst h1
    have hLpost := hl (g.outEdges node.name) node.name
      { st with numbers := upd st.numbers node.name (some cur),
                bbOf := upd st.bbOf cur (some node) } cur st2 lastid hcall
      (by
        intro m k hm
        have hm2 : upd st.numbers node.name (some cur) m = some k := hm
        by_cases hmt : m = node.name
        · subst hmt
          simp [upd] at hm2
          omega
        · simp [upd, hmt] at hm2
          exact Nat.le_of_lt (hb m k hm2))
      (by
        intro m hm
        have hm2 : upd st.numbers node.name (some cur) m = none := hm
        show st.par m = none
        by_cases hmt : m = node.name
        · subst hmt
          simp [upd] at hm2
        · simp [upd, hmt] at hm2
          exact hup m hmt hm2)
      (by
        show (upd st.numbers node.name (some cur) node.name).isSome
        simp [upd])
      (by
        intro m m2 k hm hm2
        have hma : upd st.numbers node.name (some cur) m = some k := hm
        have hmb : upd st.numbers node.name (some cur) m2 = some k := hm2
        by_cases h1 : m = node.name <;> by_cases h2 : m2 = node.name
        · rw [h1, h2]
        · subst h1
          simp [upd] at hma
          simp [upd, h2] at hmb
          have := hb m2 k hmb
          omega
        · subst h2
          simp [upd] at hmb
          simp [upd, h1] at hma
          have := hb m k hma
          omega
        · simp [upd, h1] at hma
          simp [upd, h2] at hmb
          exact hinj m m2 k hma hmb)
    exact nodePost_assemble g node st
      { st with numbers := upd st.numbers node.name (some cur),
                bbOf := upd st.bbOf cur (some node) } st2 cur lastid rfl rfl rfl hun hLpost

theorem nodeSpec_all (g : CFG) (fuel : Nat) : NodeSpec g fuel := by
  induction fuel with
  | zero => exact nodeSpec_zero g
  | succ n ih => exact nodeSpec_succ g n (listSpec_of_nodeSpec g n ih)

theorem dfsList_mono (g : CFG) (fuel : Nat)
    (hn : ∀ (node : BasicBlock) (st : DfsState) (cur : Nat) (st2 : DfsState) (ret : Nat),
      dfsNode g fuel node st cur = some (st2, ret) →
      ∀ m, (st.numbers m).isSome → (st2.numbers m).isSome) :
    ∀ (l : List BasicBlock) (nodeName : Nat) (st : DfsState) (lastid : Nat)
      (st2 : DfsState) (ret : Nat),
      dfsList (dfsNode g fuel) nodeName l st lastid = some (st2, ret) →
      ∀ m, (st.numbers m).isSome → (st2.numbers m).isSome := by
  intro l
  induction l with
  | nil =>
    intro nodeName st lastid st2 ret h m hm
    unfold dfsList at h
    injection h with h
    injection h with h1 h2
    subst h1
    exact hm
  | cons t rest ih =>
    intro nodeName st lastid st2 ret h m hm
    unfold dfsList at h
    cases htn : st.numbers t.name with
    | some k =>
      rw [htn] at h
      dsimp only at h
      exact ih nodeName st lastid st2 ret h m hm
    | none =>
      rw [htn] at h
      dsimp only at h
      cases hcall : dfsNode g fuel t
          { st with par := upd st.par t.name (some nodeName) } (lastid + 1) with
      | none =>
        rw [hcall] at h
        cases h
      | some pr =>
        obtain ⟨stN, retN⟩ := pr
        rw [hcall] at h
        dsimp only at h
        exact ih nodeName stN retN st2 ret h m (hn t _ _ _ _ hcall m hm)

theorem dfsNode_mono (g : CFG) : ∀ (fuel : Nat) (node : BasicBlock) (st : DfsState)
    (cur : Nat) (st2 : DfsState) (ret : Nat),
    dfsNode g fuel node st cur = some (st2, ret) →
    ∀ m, (st.numbers m).isSome → (st2.numbers m).isSome := by
  intro fuel
  induction fuel with
  | zero =>
    intro node st cur st2 ret h
    cases h
  | succ n ih =>
    intro node st cur st2 ret h m hm
    unfold dfsNode at h
    dsimp only at h
    cases hcall : dfsList (dfsNode g n) node.name (g.outEdges node.name)
        { st with numbers := upd st.numbers node.name (some cur),
                  bbOf := upd st.bbOf cur (some node) } cur with
    | none =>
      rw [hcall] at h
      cases h
    | some pr =>
      obtain ⟨stM, lastid⟩ := pr
      rw [hcall] at h
      dsimp only at h
      injection h with h
      injection h with h1 h2
      subst h1
      show (stM.numbers m).isSome
      refine dfsList_mono g n ih _ _ _ _ _ _ hcall m ?_
      show (upd st.numbers node.name (some cur) m).isSome
      by_cases hmt : m = node.name
      · simp [upd, hmt]
      · simp only [upd, if_neg hmt]
        exact hm

/-- The number of still-unvisited names below the node count. -/
def unvisCnt (g : CFG) (st : DfsState) : Nat :=
  ((Finset.range g.numNodes).filter (fun m => st.numbers m = none)).card

theorem unvisCnt_mono (g : CFG) (st st' : DfsState)
    (h : ∀ m, (st.numbers m).isSome → (st'.numbers m).isSome) :
    unvisCnt g st' ≤ unvisCnt g st := by
  apply Finset.card_le_card
  intro m hm
  simp only [Finset.mem_filter, Finset.mem_range] at hm ⊢
  refine ⟨hm.1, ?_⟩
  cases hms : st.numbers m with
  | none => rfl
  | some k =>
    have hsome := h m (by rw [hms]; rfl)
    rw [hm.2] at hsome
    cases hsome

theorem unvisCnt_upd (g : CFG) (st st1 : DfsState) (node cur : Nat)
    (h1 : st1.numbers = upd st.numbers node (some cur))
    (hlt : node < g.numNodes) (hun : st.numbers node = none) :
    unvisCnt g st1 < unvisCnt g st := by
  apply Finset.card_lt_card
  rw [Finset.ssubset_def]
  constructor
  · intro m hm
    simp only [Finset.mem_filter, Finset.mem_range] at hm ⊢
    obtain ⟨hr, hf⟩ := hm
    rw [h1] at hf
    by_cases hmt : m = node
    · rw [hmt] at hf
      simp [upd] at hf
    · simp only [upd, if_neg hmt] at hf
      exact ⟨hr, hf⟩
  · intro hsub
    have hnode : node ∈ (Finset.range g.numNodes).filter
        (fun m => st.numbers m = none) := by
      simp [Finset.mem_filter, Finset.mem_range, hlt, hun]
    have hmem := hsub hnode
    simp only [Finset.mem_filter, Finset.mem_range, h1] at hmem
    simp [upd] at hmem

theorem dfsNode_total (g : CFG) (hwf : WfG g) : ∀ (fuel : Nat) (node : BasicBlock)
    (st : DfsState) (cur : Nat),
    node.name < g.numNodes → st.numbers node.name = none → unvisCnt g st ≤ fuel →
    (dfsNode g fuel node st cur).isSome := by
  intro fuel
  induction fuel with
  | zero =>
    intro node st cur hlt hun hcnt
    exfalso
    have hnode : node.name ∈ (Finset.range g.numNodes).filter
        (fun m => st.numbers m = none) := by
      simp [Finset.mem_filter, Finset.mem_range, hlt, hun]
    have hpos : 0 < unvisCnt g st := Finset.card_pos.mpr ⟨node.name, hnode⟩
    omega
  | succ n ih =>
    intro node st cur hlt hun hcnt
    have hlist : ∀ (l : List BasicBlock), (∀ t ∈ l, t.name < g.numNodes) →
        ∀ (st1 : DfsState) (lastid : Nat), unvisCnt g st1 ≤ n →
        (dfsList (dfsNode g n) node.name l st1 lastid).isSome := by
      intro l
      induction l with
      | nil =>
        intro _ st1 lastid _
        unfold dfsList
        rfl
      | cons t rest ihl =>
        intro hall st1 lastid hcnt1
        unfold dfsList
        cases htn : st1.numbers t.name with
        | some k =>
          dsimp only
          exact ihl (fun u hu => hall u (List.mem_cons_of_mem t hu)) st1 lastid hcnt1
        | none =>
          dsimp only
          have ht : t.name < g.numNodes := hall t (List.mem_cons_self t rest)
          have hcall := ih t { st1 with par := upd st1.par t.name (some node.name) }
            (lastid + 1) ht htn hcnt1
          cases hc : dfsNode g n t { st1 with par := upd st1.par t.name (some node.name) }
              (lastid + 1) with
          | none =>
            rw [hc] at hcall
            cases hcall
          | some pr =>
            obtain ⟨stN, retN⟩ := pr
            dsimp only
            apply ihl (fun u hu => hall u (List.mem_cons_of_mem t hu)) stN retN
            have hmono := unvisCnt_mono g
              { st1 with par := upd st1.par t.name (some node.name) } stN
              (dfsNode_mono g n t _ (lastid + 1) stN retN hc)
            exact Nat.le_trans hmono hcnt1
    unfold dfsNode
    dsimp only
    have hcnt1 := Nat.lt_succ_iff.mp (Nat.lt_of_lt_of_le
      (unvisCnt_upd g st
        { st with numbers := upd st.numbers node.name (some cur),
                  bbOf := upd st.bbOf cur (some node) } node.name cur rfl hlt hun)
      hcnt)
    have hl := hlist (g.outEdges node.name) (fun t ht => hwf node.name t ht)
      { st with numbers := upd st.numbers node.name (some cur),
                bbOf := upd st.bbOf cur (some node) } cur hcnt1
    cases hc : dfsList (dfsNode g n) node.name (g.outEdges node.name)
        { st with numbers := upd st.numbers node.name (some cur),
                  bbOf := upd st.bbOf cur (some node) } cur with
    | none =>
      rw [hc] at hl
      cases hl
    | some pr =>
      obtain ⟨stM, lastid⟩ := pr
      dsimp only
      rfl

theorem dfsPost_desc (g : CFG) (node : BasicBlock) (dst : DfsState) (K : Nat)
    (hpost : DfsNodePost g node dfsInit 0 dst K) :
    ∀ w v, Relation.ReflTransGen (parStep dst) w v →
      ∀ kw, dst.numbers w = some kw →
        ∃ kv, dst.numbers v = some kv ∧ kw ≤ kv ∧ kv ≤ dst.last kw ∧
          dst.last kv ≤ dst.last kw := by
  intro w v hchain
  induction hchain with
  | refl =>
    intro kw hkw
    have hiv := hpost.selfIv w kw rfl hkw
    exact ⟨kw, hkw, Nat.le_refl _, hiv.1, Nat.le_refl _⟩
  | @tail b c hsteps hstep ih =>
    intro kw hkw
    obtain ⟨kb, hkb, h1, h2, h3⟩ := ih kw hkw
    have hstep2 : dst.par c = some b := hstep
    by_cases hct : c = node.name
    · exfalso
      rw [hct, hpost.parNode] at hstep2
      cases hstep2
    · have hcnum : (dst.numbers c).isSome := by
        cases hcn : dst.numbers c with
        | some k => rfl
        | none =>
          have hnone := hpost.unvisPar c hct hcn
          rw [hnone] at hstep2
          cases hstep2
      obtain ⟨p, km, kp, hp, hkm, hkp, hple, hlt2, hiv1, hiv2⟩ :=
        hpost.edge c rfl hcnum hct
      rw [hstep2] at hp
      injection hp with hp
      subst hp
      rw [hkb] at hkp
      injection hkp with hkp
      subst hkp
      exact ⟨km, hkm, by omega, Nat.le_trans hiv1 h3, Nat.le_trans hiv2 h3⟩

/-- C4: when the graph has a start node, the DFS pass numbers blocks in
strictly increasing preorder starting at 0 at the start node, every block
reachable from the start along stored out-edges receives a number, the
numbers assigned are exactly 0..K and are pairwise distinct, `last` of a
node's number is the largest number assigned in its DFS subtree (attained
by a subtree member), and `isAncestor` over numbers decides both the
interval condition and genuine DFS-tree descendance. -/
theorem c4_dfs_preorder_intervals (g : CFG) (start : BasicBlock)
    (hstart : g.startNode = some start) (hwf : WfG g)
    (hlt : start.name < g.numNodes) :
    ∃ (dst : DfsState) (K : Nat),
      dfsNode g g.numNodes start dfsInit 0 = some (dst, K) ∧
      dst.numbers start.name = some 0 ∧
      (∀ m k, dst.numbers m = some k → k ≤ K) ∧
      (∀ k, k ≤ K → ∃ m, dst.numbers m = some k) ∧
      (∀ m m2 k, dst.numbers m = some k → dst.numbers m2 = some k → m = m2) ∧
      (∀ n, ReachableName g start.name n → (dst.numbers n).isSome) ∧
      (∀ w kw, dst.numbers w = some kw →
        (∀ v kv, Relation.ReflTransGen (parStep dst) w v → dst.numbers v = some kv →
          kw ≤ kv ∧ kv ≤ dst.last kw) ∧
        (∃ v, Relation.ReflTransGen (parStep dst) w v ∧
          dst.numbers v = some (dst.last kw))) ∧
      (∀ w v kw kv, dst.numbers w = some kw → dst.numbers v = some kv →
        ((isAncestor kw kv dst.last = true ↔ kw ≤ kv ∧ kv ≤ dst.last kw) ∧
         (isAncestor kw kv dst.last = true ↔
           Relation.ReflTransGen (parStep dst) w v))) := by
  have hcnt : unvisCnt g dfsInit ≤ g.numNodes := by
    have := Finset.card_filter_le (Finset.range g.numNodes)
      (fun m => dfsInit.numbers m = none)
    simpa [unvisCnt] using this
  have htot := dfsNode_total g hwf g.numNodes start dfsInit 0 hlt rfl hcnt
  cases hrun : dfsNode g g.numNodes start dfsInit 0 with
  | none =>
    rw [hrun] at htot
    cases htot
  | some pr =>
    obtain ⟨dst, K⟩ := pr
    have hpost := nodeSpec_all g g.numNodes start dfsInit 0 dst K hrun rfl
      (fun m k hm => by cases hm)
      (fun m _ _ => rfl)
      (fun m m2 k hm => by cases hm)
    refine ⟨dst, K, rfl, hpost.numNode, ?_, ?_, hpost.inj, ?_, ?_, ?_⟩
    · intro m k hm
      exact (hpost.newWin m k rfl hm).2
    · intro k hk
      obtain ⟨m, _, hm⟩ := hpost.winSurj k (Nat.zero_le _) hk
      exact ⟨m, hm⟩
    · intro n hreach
      induction hreach with
      | refl =>
        rw [hpost.numNode]
        rfl
      | @tail b c hsteps hstep ih =>
        obtain ⟨t, ht, htn⟩ := hstep
        have hbc : ∀ u, u ∈ g.outEdges b → (dst.numbers u.name).isSome := by
          by_cases hbs : b = start.name
          · exact hpost.closed b (Or.inr hbs)
          · exact hpost.closed b (Or.inl ⟨rfl, ih⟩)
        rw [← htn]
        exact hbc t ht
    · intro w kw hkw
      constructor
      · intro v kv hchain hkv
        obtain ⟨kv2, hkv2, hb1, hb2, _⟩ := dfsPost_desc g start dst K hpost w v hchain kw hkw
        rw [hkv] at hkv2
        injection hkv2 with hkv2
        subst hkv2
        exact ⟨hb1, hb2⟩
      · exact hpost.achieverAll w kw rfl hkw
    · intro w v kw kv hkw hkv
      have hdef : isAncestor kw kv dst.last = true ↔ kw ≤ kv ∧ kv ≤ dst.last kw := by
        simp [isAncestor]
      refine ⟨hdef, hdef.trans ⟨?_, ?_⟩⟩
      · intro hbnd
        obtain ⟨v2, hv2, hchain⟩ := hpost.ivComp w kw rfl hkw kv hbnd.1 hbnd.2
        have : v2 = v := hpost.inj v2 v kv hv2 hkv
        rw [this] at hchain
        exact hchain
      · intro hchain
        obtain ⟨kv2, hkv2, hb1, hb2, _⟩ := dfsPost_desc g start dst K hpost w v hchain kw hkw
        rw [hkv] at hkv2
        injection hkv2 with hkv2
        subst hkv2
        exact ⟨hb1, hb2⟩

theorem c4_dfs_preorder_intervals_witness :
    gAA.startNode = some bbA ∧ WfG gAA ∧ bbA.name < gAA.numNodes ∧
    ∃ (dst : DfsState) (K : Nat),
      dfsNode gAA gAA.numNodes bbA dfsInit 0 = some (dst, K) ∧
      dst.numbers bbA.name = some 0 := by
  have hwf : WfG gAA := by
    intro n t ht
    simp only [gAA] at ht
    by_cases hn : n = 0
    · rw [if_pos hn] at ht
      rw [List.mem_singleton] at ht
      subst ht
      decide
    · rw [if_neg hn] at ht
      cases ht
  obtain ⟨dst, K, h1, h2, _⟩ :=
    c4_dfs_preorder_intervals gAA bbA rfl hwf (by decide)
  exact ⟨rfl, hwf, by decide, dst, K, h1, h2⟩
